import Mathlib

/-!
Verification of the mini-snark repository: a finite-field / polynomial
library (src/field.py) together with the KZG polynomial commitment scheme
(src/kzg.py, src/bls12.py).

Embedding conventions:
* Python integers are `Int`; every reduction `% order` of the source is an
  explicit `% p` here (for a positive modulus Python `%` and `Int.emod`
  agree: the result lies in `[0, p)`).
* A `FieldElement` is represented by its stored `val : Int`.
* A `Polynomial` object is represented by its `coeff : List Int`
  (least-significant first); the constructor trims trailing zeros exactly
  as the Python constructor does.
* A Python `assert` failure (an aborted call) is `none`.
* The commitment group (the external py_ecc backend behind src/bls12.py) is
  modelled from the spec, sections 3 and 4.4: an opaque cyclic group of prime
  order with a symmetric nondegenerate bilinear pairing
  `e(a*P, b*Q) = e(P,Q)^(a*b)`.  An element is represented by its discrete
  logarithm base `G` in `ZMod p`, scalar multiplication is multiplication of
  the scalar with the logarithm, and a pairing value is represented by its
  exponent over `e(G,G)`.
-/

/-! ## FieldElement (src/field.py, class FieldElement) -/

/-- Model of `FieldElement.__init__` (src/field.py line 97): the stored value
is `val % field.order`. -/
def feInit (p : ℕ) (v : ℤ) : ℤ := v % (p : ℤ)

/-- Model of `Field.zero` (src/field.py line 29): `FieldElement(self, 0)`. -/
def fieldZero (p : ℕ) : ℤ := feInit p 0

/-- Model of `Field.one` (src/field.py line 35): `FieldElement(self, 1)`. -/
def fieldOne (p : ℕ) : ℤ := feInit p 1

/-- Model of `FieldElement.__add__`: `(self.val + other.val) % order`. -/
def feAdd (p : ℕ) (a b : ℤ) : ℤ := (a + b) % (p : ℤ)

/-- Model of `FieldElement.__sub__`: `(self.val - other.val) % order`. -/
def feSub (p : ℕ) (a b : ℤ) : ℤ := (a - b) % (p : ℤ)

/-- Model of `FieldElement.__mul__`: `(self.val * other.val) % order`. -/
def feMul (p : ℕ) (a b : ℤ) : ℤ := (a * b) % (p : ℤ)

/-- Model of `FieldElement.__neg__`: `self.field.zero() - self`. -/
def feNeg (p : ℕ) (a : ℤ) : ℤ := feSub p (fieldZero p) a

/-- Model of `Field.random_element` (src/field.py line 41):
`FieldElement(self, randint(0, self.order - 1))`; `r` stands for the integer
returned by the random source, the constructor then reduces it. -/
def feRandomElement (p : ℕ) (r : ℤ) : ℤ := feInit p r

/-- The loop of `FieldElement.inverse` (src/field.py lines 142-147), the
extended Euclidean algorithm.  State `(t, new_t, r, new_r)`; both `r` and
`new_r` stay nonnegative (they start at `order` and `val` and each step takes
a Euclidean remainder), so they are `ℕ` and Python floor division `//` is `ℕ`
division.  Returns the final `(t, r)`. -/
def invLoop : ℕ → ℤ → ℤ → ℕ → ℕ → ℤ × ℕ
  | _, t, _, r, 0 => (t, r)
  | 0, t, _, r, _ => (t, r)
  | Nat.succ fuel, t, newt, r, newr =>
    invLoop fuel newt (t - ((r / newr : ℕ) : ℤ) * newt) newr (r % newr)

/-- Model of `FieldElement.inverse` (src/field.py lines 141-149): run the
extended Euclidean loop from `(0, 1, order, val)`; `assert r == 1` (so `none`
when the gcd is not 1, in particular for `val = 0` in a field of prime
order), then `FieldElement(self.field, t)` reduces `t` mod the order.
The input `a` is the stored `val` of the element, a nonnegative integer. -/
def feInverse (p : ℕ) (a : ℤ) : Option ℤ :=
  let tr := invLoop (a.toNat + 1) 0 1 p a.toNat
  if tr.2 = 1 then some (feInit p tr.1) else none

/-- Model of `FieldElement.__truediv__`: `self * other.inverse()`. -/
def feTruediv (p : ℕ) (a b : ℤ) : Option ℤ :=
  (feInverse p b).map (fun i => feMul p a i)

/-- The loop of `FieldElement.__pow__` (src/field.py lines 155-164),
square-and-multiply over the running pair `(cur_pow, res)`. -/
def fePowAux (p : ℕ) : ℕ → ℤ → ℤ → ℕ → ℤ
  | 0, _, res, _ => res
  | Nat.succ fuel, cur, res, n =>
    if n = 0 then res
    else fePowAux p fuel (feMul p cur cur)
          (if n % 2 ≠ 0 then feMul p res cur else res) (n / 2)

/-- Model of `FieldElement.__pow__`: requires `n >= 0` (so `n : ℕ` here),
starts from `res = FieldElement(self.field, 1)` and `cur_pow = self`. -/
def fePow (p : ℕ) (a : ℤ) (n : ℕ) : ℤ := fePowAux p (n + 1) a (feInit p 1) n

/-! ## Polynomial (src/field.py, class Polynomial) -/

/-- Model of `trim_trailing_zeros` (src/field.py lines 172-180): remove the
zeros at the end of a coefficient list.  (The Python comparison `l[i] == 0`
coerces `0` to a field element of value `0` and compares stored values, so on
reduced values it is integer comparison with `0`.)  This recursive form
returns the same list as the Python index scan. -/
def trimZeros : List ℤ → List ℤ
  | [] => []
  | a :: l =>
    match trimZeros l with
    | [] => if a = 0 then [] else [a]
    | b :: l2 => a :: (b :: l2)

/-- Model of a `Polynomial` object: its (already trimmed) coefficient list,
least-significant first.  `Polynomial.__eq__` compares these lists, so `PyPoly`
equality is the source equality. -/
structure PyPoly where
  coeff : List ℤ
deriving DecidableEq, Repr

/-- Model of the `Polynomial` constructor (src/field.py line 184):
`self.coeff = trim_trailing_zeros(coefficients)`. -/
def mkPoly (_p : ℕ) (l : List ℤ) : PyPoly := ⟨trimZeros l⟩

/-- Well-formedness invariant every `Polynomial` object built by the source
satisfies: the coefficient list is trimmed and all stored values are reduced
mod `p` (claim C9's invariant). -/
def PyPoly.wf (p : ℕ) (f : PyPoly) : Prop :=
  trimZeros f.coeff = f.coeff ∧ ∀ c ∈ f.coeff, 0 ≤ c ∧ c < (p : ℤ)

instance (p : ℕ) (f : PyPoly) : Decidable (f.wf p) := by
  unfold PyPoly.wf; infer_instance

/-- Model of Python `zip_longest` with `fillvalue = field.zero()` followed by
an elementwise binary operation, as used by `Polynomial.__add__` and
`Polynomial.__sub__`. -/
def zipLongestWith (f : ℤ → ℤ → ℤ) : List ℤ → List ℤ → List ℤ
  | [], l2 => l2.map (fun b => f 0 b)
  | a :: l1, [] => f a 0 :: zipLongestWith f l1 []
  | a :: l1, b :: l2 => f a b :: zipLongestWith f l1 l2

/-- Model of `Polynomial.__add__`. -/
def polyAdd (p : ℕ) (f g : PyPoly) : PyPoly :=
  mkPoly p (zipLongestWith (feAdd p) f.coeff g.coeff)

/-- Model of `Polynomial.__sub__`. -/
def polySub (p : ℕ) (f g : PyPoly) : PyPoly :=
  mkPoly p (zipLongestWith (feSub p) f.coeff g.coeff)

/-- Model of `Polynomial.__neg__`: negate every coefficient. -/
def polyNeg (p : ℕ) (f : PyPoly) : PyPoly := mkPoly p (f.coeff.map (feNeg p))

/-- Model of `Polynomial.scalar_mul`: multiply every coefficient by the
scalar. -/
def polyScalarMul (p : ℕ) (f : PyPoly) (s : ℤ) : PyPoly :=
  mkPoly p (f.coeff.map (fun c => feMul p c s))

/-- The integer convolution inside `Polynomial.__mul__` (src/field.py lines
253-258): `res[i+j] += c1 * c2` over plain integers.  `convRaw f g` is the
list whose entry `k` is the sum of `f i * g j` over `i + j = k`; adding
lists entrywise (zero padded) with plain integer addition. -/
def convRaw : List ℤ → List ℤ → List ℤ
  | [], _ => []
  | a :: l1, l2 => zipLongestWith (fun x y => x + y) (l2.map (fun c => a * c)) (0 :: convRaw l1 l2)

/-- Model of `Polynomial.__mul__`: integer convolution, then each entry is
turned back into a field element (reduced mod `p`), then the constructor
trims.  (The Python preallocation size `deg f + deg g + 1` only pads with
zeros that the final trim removes; the values per index are identical.) -/
def polyMul (p : ℕ) (f g : PyPoly) : PyPoly :=
  mkPoly p ((convRaw f.coeff g.coeff).map (feInit p))

/-- Model of `Polynomial.degree` (src/field.py lines 314-320): length of the
trimmed coefficient list minus 1, hence `-1` for the zero polynomial. -/
def polyDegree (f : PyPoly) : ℤ := ((trimZeros f.coeff).length : ℤ) - 1

/-- Model of `Polynomial.eval` (src/field.py lines 346-355): Horner
evaluation with integer operations; the point is first coerced to a field
element (reduced), and every step reduces mod the order. -/
def polyEval (p : ℕ) (f : PyPoly) (x : ℤ) : ℤ :=
  f.coeff.foldr (fun c acc => (acc * feInit p x + c) % (p : ℤ)) 0

/-- Model of `Field.monomial` (src/field.py line 66):
`Polynomial([zero] * degree + [coefficient])`. -/
def monomial (p : ℕ) (degree : ℕ) (c : ℤ) : PyPoly :=
  mkPoly p (List.replicate degree (fieldZero p) ++ [c])

/-- Model of the `Field.X` property: `monomial(1, one())`. -/
def fieldX (p : ℕ) : PyPoly := monomial p 1 (fieldOne p)

/-- One pass of the `while deg_dif >= 0` loop of `Polynomial.__divmod__`
(src/field.py lines 292-302) followed by the remaining passes; state is the
running `(quotient, rem)`.

* `tmp = rem[-1] * g_msc_inv`;
* `quotient[deg_dif] = quotient[deg_dif] + tmp`;
* the `for` loop subtracts `tmp * pol2[i - deg_dif]` from `rem[i]` for the
  indices `deg_dif <= i`, which is the `zipWith` over `rem.drop deg_dif`;
* `rem = rem[:last_non_zero + 1]` keeps everything strictly below `deg_dif`
  and, of the updated window, everything up to its last nonzero entry —
  i.e. the window is trimmed.

The recursion is guarded by the strict decrease of `rem.length`; the guard
always holds when `g_inv` is the inverse of the divisor's leading
coefficient (the top entry of the window becomes zero), which is the only
way the source calls it, and is proved in `divmodLoop_spec`. -/
def divmodTmp (p : ℕ) (g_inv : ℤ) (rem : List ℤ) : ℤ :=
  feMul p (rem.getLastD 0) g_inv

/-- The quotient update of one pass:
`quotient[deg_dif] = quotient[deg_dif] + tmp`. -/
def divmodQuotStep (p : ℕ) (pol2 : List ℤ) (g_inv : ℤ) (quot rem : List ℤ) : List ℤ :=
  quot.set (rem.length - pol2.length)
    (feAdd p (quot.getD (rem.length - pol2.length) 0) (divmodTmp p g_inv rem))

/-- The remainder after the subtraction `for` loop of one pass:
`rem[i] = rem[i] - tmp * pol2[i - deg_dif]` for `deg_dif <= i`, expressed as
the `zipWith` over the window `rem.drop deg_dif` against `pol2`. -/
def divmodRemSub (p : ℕ) (pol2 : List ℤ) (g_inv : ℤ) (rem : List ℤ) : List ℤ :=
  rem.take (rem.length - pol2.length) ++
    List.zipWith (fun a b => feSub p a (feMul p (divmodTmp p g_inv rem) b))
      (rem.drop (rem.length - pol2.length)) pol2

/-- The remainder after the truncation `rem = rem[:last_non_zero + 1]` of one
pass: everything strictly below `deg_dif` is kept, and the updated window is
cut after its last nonzero entry, i.e. the window is trimmed. -/
def divmodRemStep (p : ℕ) (pol2 : List ℤ) (g_inv : ℤ) (rem : List ℤ) : List ℤ :=
  rem.take (rem.length - pol2.length) ++
    trimZeros ((divmodRemSub p pol2 g_inv rem).drop (rem.length - pol2.length))

/-- The `while deg_dif >= 0` loop of `__divmod__`: while the running
remainder is at least as long as the divisor, apply one pass
(`divmodQuotStep` / `divmodRemStep`) and continue.  The first argument is an
iteration bound used to make the recursion structural: every pass strictly
shortens the remainder (its top entry is cancelled and trimmed away; proved
in `divmodLoop_spec`), so the bound `rem.length + 1` that `__divmod__`
supplies is never reached. -/
def divmodLoop (p : ℕ) (pol2 : List ℤ) (g_inv : ℤ) :
    ℕ → List ℤ → List ℤ → List ℤ × List ℤ
  | 0, quot, rem => (quot, rem)
  | Nat.succ n, quot, rem =>
    if rem.length < pol2.length then (quot, rem)
    else
      divmodLoop p pol2 g_inv n (divmodQuotStep p pol2 g_inv quot rem)
        (divmodRemStep p pol2 g_inv rem)

/-- The value returned by `Polynomial.__divmod__` (src/field.py lines
276-304).  Python is dynamically typed and the two `return` statements build
different types: the zero-dividend branch at line 287 returns the bare
Python lists `([], [])`, while the main path returns a pair of `Polynomial`
objects.  The distinction is observable: on bare lists, `q * g` raises
`TypeError` and `r.degree()` raises `AttributeError`, and `__truediv__`'s
check `mod == 0` compares a list with an integer. -/
inductive DivmodResult
  | polys (q r : PyPoly)
  | bare (q r : List ℤ)
deriving DecidableEq, Repr

/-- Model of `Polynomial.__divmod__` (src/field.py lines 276-304).  `none`
when the divisor trims to the zero polynomial (`assert pol2`) or when the
leading-coefficient inverse fails.  For a zero dividend the code returns
the bare Python lists `([], [])` rather than `Polynomial` objects
(`DivmodResult.bare`); otherwise it runs the long-division loop and wraps
the results as `Polynomial` objects (`DivmodResult.polys`). -/
def polyDivmod (p : ℕ) (f g : PyPoly) : Option DivmodResult :=
  let pol2 := trimZeros g.coeff
  if pol2.isEmpty then none
  else
    let pol1 := trimZeros f.coeff
    if pol1.isEmpty then some (DivmodResult.bare [] [])
    else
      match feInverse p (pol2.getLastD 0) with
      | none => none
      | some g_inv =>
        let qr := divmodLoop p pol2 g_inv (pol1.length + 1)
          (List.replicate (pol1.length - pol2.length + 1) (fieldZero p)) pol1
        some (DivmodResult.polys (mkPoly p (trimZeros qr.1)) (mkPoly p qr.2))

/-- Model of `Polynomial.__truediv__` (src/field.py lines 306-309):
`div, mod = divmod(self, other); assert mod == 0`.  When `__divmod__` took
the zero-dividend branch, `mod` is the bare list `[]`, and the Python
comparison `[] == 0` is `False` (a list never equals an integer), so the
assertion fires even though the division is exact: dividing the zero
polynomial always aborts.  Otherwise `mod` is a `Polynomial` and `mod == 0`
coerces `0` to the zero polynomial and compares trimmed coefficient lists,
i.e. holds exactly when the remainder's list is empty. -/
def polyTruediv (p : ℕ) (f g : PyPoly) : Option PyPoly :=
  match polyDivmod p f g with
  | none => none
  | some (DivmodResult.bare _ _) => none
  | some (DivmodResult.polys q r) => if r.coeff.isEmpty then some q else none

/-! ## Lagrange interpolation (src/field.py lines 376-434) -/

/-- Model of `prod` (src/field.py lines 376-385) on field elements, used for
the interpolation denominators: balanced divide-and-conquer product.  An
empty input returns the Python integer `1` (only reachable when there is a
single interpolation point; the later coercion multiplies by it). -/
def prodFE (p : ℕ) (l : List ℤ) : ℤ :=
  if l.length = 0 then 1
  else if l.length = 1 then l.headD 0
  else feMul p (prodFE p (l.take (l.length / 2))) (prodFE p (l.drop (l.length / 2)))
termination_by l.length
decreasing_by
  · simpa using Nat.div_lt_self (by omega) one_lt_two
  · simp only [List.length_drop]
    omega

/-- Model of `prod` on polynomials, used for the interpolation numerator.
An empty input returns the Python integer `1`, modelled as the constant
polynomial 1 (unreachable: `calculate_lagrange_polynomials` asserts a
nonempty point list). -/
def prodPoly (p : ℕ) (l : List PyPoly) : PyPoly :=
  if l.length = 0 then monomial p 0 (fieldOne p)
  else if l.length = 1 then l.headD ⟨[]⟩
  else polyMul p (prodPoly p (l.take (l.length / 2))) (prodPoly p (l.drop (l.length / 2)))
termination_by l.length
decreasing_by
  · simpa using Nat.div_lt_self (by omega) one_lt_two
  · simp only [List.length_drop]
    omega

/-- The quotient component of a `__divmod__` result, as used by
`calculate_lagrange_polynomials`, which tuple-unpacks the returned pair and
keeps the first element as the basis `Polynomial`.  In the zero-dividend
branch that element is the bare list `[]`, on which the later `scalar_mul`
call would raise `AttributeError`; that branch is modelled as failure and is
unreachable here, because the numerator `prod(monomials)` is never the zero
polynomial. -/
def divmodQuot : DivmodResult → Option PyPoly
  | DivmodResult.polys q _ => some q
  | DivmodResult.bare _ _ => none

/-- Model of `calculate_lagrange_polynomials` (src/field.py lines 387-407).
`assert len(x_values) > 0`; the list comprehension
`[x_values[j] - x for i, x in enumerate(x_values) if i != j]` takes every
element except the one at index `j`, i.e. maps over `xs.eraseIdx j`.  Each
`divmod` may abort (e.g. a repeated point makes the denominator zero and the
divisor the zero polynomial), hence the `Option`. -/
def calculateLagrangePolynomials (p : ℕ) (xs : List ℤ) : Option (List PyPoly) :=
  if xs.length = 0 then none
  else
    let monomials := xs.map (fun x => polySub p (fieldX p) (mkPoly p [x]))
    let numerator := prodPoly p monomials
    (List.range xs.length).mapM (fun j =>
      let denominator := prodFE p ((xs.eraseIdx j).map (fun x => feSub p (xs.getD j 0) x))
      (polyDivmod p numerator (polyScalarMul p (monomials.getD j ⟨[]⟩) denominator)).bind
        divmodQuot)

/-- Model of `interpolate_poly_lagrange` (src/field.py lines 409-420):
`assert len(y_values) > 0`, then starting from `Polynomial([])` add
`lagrange_polynomials[j].scalar_mul(y_values[j])` for each `j`. -/
def interpolatePolyLagrange (p : ℕ) (ys : List ℤ) (lp : List PyPoly) : Option PyPoly :=
  if ys.length = 0 then none
  else some ((List.zipWith (fun y l => polyScalarMul p l y) ys lp).foldl (polyAdd p) ⟨[]⟩)

/-- Model of `interpolate_poly` (src/field.py lines 423-434):
`assert len(x_values) == len(y_values)`, compute the Lagrange basis, then
combine it with the values. -/
def interpolatePoly (p : ℕ) (xs ys : List ℤ) : Option PyPoly :=
  if xs.length = ys.length then
    (calculateLagrangePolynomials p xs).bind (fun lp => interpolatePolyLagrange p ys lp)
  else none

/-- The `j`-th Lagrange basis polynomial as computed inside
`calculate_lagrange_polynomials` (src/field.py lines 387-407): the quotient
of the full numerator product by the scaled monomial at index `j`.  The
`Option.getD` default is never reached when the division succeeds, which the
basis theorem establishes for distinct points. -/
def lagrangeBasisPoly (p : ℕ) (xs : List ℤ) (j : ℕ) : PyPoly :=
  ((polyDivmod p (prodPoly p (xs.map (fun x => polySub p (fieldX p) (mkPoly p [x]))))
      (polyScalarMul p
        ((xs.map (fun x => polySub p (fieldX p) (mkPoly p [x]))).getD j ⟨[]⟩)
        (prodFE p ((xs.eraseIdx j).map (fun x => feSub p (xs.getD j 0) x))))).bind
    divmodQuot).getD ⟨[]⟩

/-! ## The commitment group and the KZG scheme (src/bls12.py, src/kzg.py)

Modelled from the spec: the group law and pairing live in the external
py_ecc backend wrapped by src/bls12.py; per spec sections 3 and 4.4 it is an
opaque cyclic group of prime order with a symmetric nondegenerate bilinear
pairing.  A group element is represented by its discrete logarithm base the
generator `G`, an element of `ZMod p`; a pairing value by its exponent over
`e(G, G)`, so `e(a*G, b*G) = e(G,G)^(a*b)` becomes multiplication in
`ZMod p`. -/

/-- The group of commitments in discrete-logarithm representation. -/
abbrev GroupElt (p : ℕ) := ZMod p

/-- The generator `G = bls12_381_symm.G` has logarithm 1. -/
def G (p : ℕ) : GroupElt p := 1

/-- Model of `bls12_381_symm.__mul__`: scalar multiplication by the stored
integer value of a `FieldElement` (or a Python int). -/
def gsmul (p : ℕ) (x : ℤ) (P : GroupElt p) : GroupElt p := (x : ZMod p) * P

/-- Model of `bls12_381_symm.pair`, the pairing `e`, as its exponent over
`e(G, G)`. -/
def pairE (p : ℕ) (a b : GroupElt p) : ZMod p := a * b

/-- Model of `setup` (src/kzg.py lines 20-26).  The random scalars `s` and
`alpha` are the stored values of the two sampled field elements.  Returns
`(pk, vk)` with `pk = (primary basis, alpha-shifted basis)` and
`vk = (G*s, G*t(s), G*alpha)`. -/
def setup (p n : ℕ) (t : PyPoly) (s alpha : ℤ) :
    (List (GroupElt p) × List (GroupElt p)) × (GroupElt p × GroupElt p × GroupElt p) :=
  ( ( (List.range n).map (fun i => gsmul p (fePow p s i) (G p))
    , (List.range n).map (fun i => gsmul p alpha (gsmul p (fePow p s i) (G p))) )
  , ( gsmul p s (G p), gsmul p (polyEval p t s) (G p), gsmul p alpha (G p) ) )

/-- Model of `commit` (src/kzg.py lines 31-33):
`assert len(H) >= len(f.coeff)`, then `sum(f.coeff[i] * H[i] ...)` starting
from `G*0` (the identity). -/
def commit (p : ℕ) (H : List (GroupElt p)) (f : PyPoly) : Option (GroupElt p) :=
  if H.length ≥ f.coeff.length then
    some (((List.range f.coeff.length).map
      (fun i => gsmul p (f.coeff.getD i 0) (H.getD i 0))).sum)
  else none

/-- Model of `prove_eval` (src/kzg.py lines 37-42): the quotient
`q = (f - v) / (X - u)` by exact division (which aborts when it is not
exact), committed under the primary basis `pk[0]`. -/
def proveEval (p : ℕ) (pk : List (GroupElt p) × List (GroupElt p)) (f : PyPoly)
    (u v : ℤ) : Option (GroupElt p) :=
  (polyTruediv p (polySub p f (mkPoly p [v]))
      (polySub p (fieldX p) (mkPoly p [u]))).bind
    (fun q => commit p pk.1 q)

/-- Model of `verify_eval` (src/kzg.py lines 45-48):
`e(G_s, com_h) == e(com_f + -(v * G) + u * com_h, G)`. -/
def verifyEval (p : ℕ) (vk : GroupElt p × GroupElt p × GroupElt p)
    (com_f : GroupElt p) (u v : ℤ) (com_h : GroupElt p) : Bool :=
  decide (pairE p vk.1 com_h =
    pairE p (com_f + -(gsmul p v (G p)) + gsmul p u com_h) (G p))

/-- Model of `verify_roots` (src/kzg.py lines 58-61):
`e(com_f, G) == e(com_h, G_ts)`. -/
def verifyRoots (p : ℕ) (vk : GroupElt p × GroupElt p × GroupElt p)
    (com_f com_h : GroupElt p) : Bool :=
  decide (pairE p com_f (G p) = pairE p com_h vk.2.1)

/-- Model of `verify_shift` (src/kzg.py lines 64-67):
`e(com_fs, G) == e(com_f, G_alpha)`. -/
def verifyShift (p : ℕ) (vk : GroupElt p × GroupElt p × GroupElt p)
    (com_f com_fs : GroupElt p) : Bool :=
  decide (pairE p com_fs (G p) = pairE p com_f vk.2.2)

/-! ## The mathematical image: coefficient lists as `Polynomial (ZMod p)` -/

/-- The polynomial over `ZMod p` denoted by a coefficient list
(least-significant first).  All operations of the source are proved to
commute with this map; on well-formed (trimmed, reduced) lists it is
injective.  This is a proof-side semantic map (Mathlib polynomials carry no
executable code); every model of source code above is computable. -/
noncomputable def toPoly (p : ℕ) : List ℤ → Polynomial (ZMod p)
  | [] => 0
  | a :: l => Polynomial.C (a : ZMod p) + Polynomial.X * toPoly p l

/-- Reduced-value predicate for claim C9: a stored value lies in
`[0, order)`. -/
def inRange (p : ℕ) (x : ℤ) : Prop := 0 ≤ x ∧ x < (p : ℤ)

instance (p : ℕ) (x : ℤ) : Decidable (inRange p x) := by
  unfold inRange; infer_instance

/-! ## Basic lemmas about the modular arithmetic -/

/-- Casting an integer reduced mod `p` into `ZMod p` forgets the reduction. -/
theorem intCast_emod_zmod (p : ℕ) (x : ℤ) : ((x % (p : ℤ) : ℤ) : ZMod p) = (x : ZMod p) := by
  rw [ZMod.intCast_eq_intCast_iff', Int.emod_emod_of_dvd _ dvd_rfl]

theorem inRange_emod (p : ℕ) (hp : 0 < p) (x : ℤ) : inRange p (x % (p : ℤ)) := by
  constructor
  · exact Int.emod_nonneg x (by exact_mod_cast hp.ne')
  · exact Int.emod_lt_of_pos x (by exact_mod_cast hp)

theorem inRange_self_emod (p : ℕ) (x : ℤ) (h : inRange p x) : x % (p : ℤ) = x :=
  Int.emod_eq_of_lt h.1 h.2

/-- Two reduced integers with the same image in `ZMod p` are equal. -/
theorem inRange_cast_inj (p : ℕ) (x y : ℤ) (hx : inRange p x) (hy : inRange p y)
    (h : (x : ZMod p) = (y : ZMod p)) : x = y := by
  rw [ZMod.intCast_eq_intCast_iff'] at h
  rwa [inRange_self_emod p x hx, inRange_self_emod p y hy] at h

theorem inRange_cast_ne_zero (p : ℕ) (x : ℤ) (hx : inRange p x) (hne : x ≠ 0) :
    (x : ZMod p) ≠ 0 := by
  intro h
  rw [show (0 : ZMod p) = ((0 : ℤ) : ZMod p) by norm_num] at h
  exact hne (inRange_cast_inj p x 0 hx ⟨le_refl 0, lt_of_le_of_lt hx.1 hx.2⟩ h)

theorem fePowAux_inRange (p : ℕ) (hp : 0 < p) :
    ∀ (fuel : ℕ) (cur res : ℤ) (n : ℕ),
      inRange p res → inRange p (fePowAux p fuel cur res n) := by
  intro fuel
  induction fuel with
  | zero => intro cur res n h; exact h
  | succ fuel ih =>
    intro cur res n h
    rw [fePowAux]
    by_cases h0 : n = 0
    · simpa [h0] using h
    · simp only [h0, if_false]
      refine ih _ _ _ ?_
      split
      · exact inRange_emod p hp _
      · exact h

/-- The value of the square-and-multiply loop in `ZMod p`:
`res * cur ^ n`. -/
theorem fePowAux_cast (p : ℕ) :
    ∀ (fuel : ℕ) (cur res : ℤ) (n : ℕ), n < fuel →
      ((fePowAux p fuel cur res n : ℤ) : ZMod p) = (res : ZMod p) * (cur : ZMod p) ^ n := by
  intro fuel
  induction fuel with
  | zero => intro cur res n h; omega
  | succ fuel ih =>
    intro cur res n h
    rw [fePowAux]
    by_cases h0 : n = 0
    · simp [h0]
    · simp only [h0, if_false]
      rw [ih _ _ _ (by omega)]
      have hsq : ((cur : ZMod p) * (cur : ZMod p)) ^ (n / 2) = (cur : ZMod p) ^ (2 * (n / 2)) := by
        rw [← sq, ← pow_mul]
      by_cases hpar : n % 2 = 0
      · simp only [hpar, ne_eq, not_true_eq_false, if_false, feMul, intCast_emod_zmod]
        push_cast
        rw [hsq, show 2 * (n / 2) = n by omega]
      · simp only [hpar, ne_eq, not_false_eq_true, if_true, feMul, intCast_emod_zmod]
        push_cast
        rw [hsq, mul_assoc, ← pow_succ']
        rw [show 2 * (n / 2) + 1 = n from by omega]

/-! ## The extended Euclidean inverse -/

/-- Invariant of the `inverse` loop: if both running coefficients satisfy
`t * a ≡ r (mod p)`, the final pair does too, and the final `r` is the gcd
of the two running remainders. -/
theorem invLoop_spec (p : ℕ) (a : ℤ) :
    ∀ (fuel : ℕ) (newr r : ℕ) (t newt : ℤ), newr ≤ fuel →
      (t * a) % (p : ℤ) = (r : ℤ) % (p : ℤ) →
      (newt * a) % (p : ℤ) = ((newr : ℤ)) % (p : ℤ) →
      ((invLoop fuel t newt r newr).1 * a) % (p : ℤ)
          = (((invLoop fuel t newt r newr).2 : ℤ)) % (p : ℤ)
        ∧ (invLoop fuel t newt r newr).2 = Nat.gcd newr r := by
  intro fuel
  induction fuel with
  | zero =>
    intro newr r t newt hle ht hnewt
    have h0 : newr = 0 := by omega
    subst h0
    rw [invLoop]
    exact ⟨by simpa using ht, (Nat.gcd_zero_left r).symm⟩
  | succ fuel ih =>
    intro newr r t newt hle ht hnewt
    rcases newr with _ | m
    · rw [invLoop]
      exact ⟨by simpa using ht, (Nat.gcd_zero_left r).symm⟩
    · rw [invLoop]
      have hlt : r % (m + 1) < m + 1 := Nat.mod_lt _ (Nat.succ_pos m)
      have hmod : ((t - ((r / (m + 1) : ℕ) : ℤ) * newt) * a) % (p : ℤ)
          = ((r % (m + 1) : ℕ) : ℤ) % (p : ℤ) := by
        have hq : (((m + 1 : ℕ)) : ℤ) * ((r / (m + 1) : ℕ) : ℤ)
            + ((r % (m + 1) : ℕ) : ℤ) = (r : ℤ) := by
          exact_mod_cast congrArg (fun x : ℕ => (x : ℤ)) (Nat.div_add_mod r (m + 1))
        have hdecomp : ((r % (m + 1) : ℕ) : ℤ)
            = (r : ℤ) - ((r / (m + 1) : ℕ) : ℤ) * ((m + 1 : ℕ) : ℤ) := by
          linarith
        rw [hdecomp]
        have hexp : (t - ((r / (m + 1) : ℕ) : ℤ) * newt) * a
            = t * a - ((r / (m + 1) : ℕ) : ℤ) * (newt * a) := by ring
        rw [hexp]
        exact Int.ModEq.sub ht (Int.ModEq.mul_left _ hnewt)
      have hrec := ih (r % (m + 1)) (m + 1) newt (t - ((r / (m + 1) : ℕ) : ℤ) * newt)
        (by omega) hnewt hmod
      refine ⟨hrec.1, ?_⟩
      rw [hrec.2, Nat.gcd_rec (m + 1) r]
      omega

/-- `FieldElement.inverse` on a reduced nonzero element of a prime-order
field succeeds and returns the reduced multiplicative inverse. -/
theorem feInverse_spec (p : ℕ) (hp : p.Prime) (a : ℤ) (ha : inRange p a) (hne : a ≠ 0) :
    ∃ t, feInverse p a = some t ∧ inRange p t ∧ (t * a) % (p : ℤ) = 1 % (p : ℤ) := by
  have htoNat : ((a.toNat : ℕ) : ℤ) = a := Int.toNat_of_nonneg ha.1
  have h1 : ((0 : ℤ) * a) % (p : ℤ) = ((p : ℕ) : ℤ) % (p : ℤ) := by
    simp [Int.emod_self]
  have h2 : ((1 : ℤ) * a) % (p : ℤ) = ((a.toNat : ℕ) : ℤ) % (p : ℤ) := by
    rw [htoNat, one_mul]
  have hspec := invLoop_spec p a (a.toNat + 1) a.toNat p 0 1 (by omega) h1 h2
  have ha0 := ha.1
  have ha1 := ha.2
  have hgcd : Nat.gcd a.toNat p = 1 := by
    have hcop : Nat.Coprime p a.toNat := by
      rw [Nat.Prime.coprime_iff_not_dvd hp]
      intro hdvd
      have hlt : a.toNat < p := by omega
      have hpos : 0 < a.toNat := by omega
      exact absurd (Nat.le_of_dvd hpos hdvd) (by omega)
    exact Nat.Coprime.gcd_eq_one (Nat.Coprime.symm hcop)
  rw [hgcd] at hspec
  refine ⟨feInit p (invLoop (a.toNat + 1) 0 1 p a.toNat).1, ?_, inRange_emod p hp.pos _, ?_⟩
  · rw [feInverse]
    simp [hspec.2]
  · rw [feInit, Int.mul_emod, Int.emod_emod_of_dvd _ dvd_rfl, ← Int.mul_emod, hspec.1]
    simp [hspec.2]

/-- `FieldElement.inverse` aborts on the zero element of a prime-order
field: the loop immediately finishes with `r = p` and `assert r == 1`
fails. -/
theorem feInverse_zero (p : ℕ) (hp : 1 < p) : feInverse p 0 = none := by
  have hne : p ≠ 1 := by omega
  rw [feInverse]
  simp [invLoop, hne]

/-- Claim C5: for every field element `a` in `[0, order)` with `a ≠ 0`
(order prime), `a.inverse() * a` equals the field's one element; for
`a = 0`, `inverse()` fails. -/
theorem claim_C5_field_inverse (p : ℕ) (hp : p.Prime) (a : ℤ) (ha : inRange p a) :
    (a ≠ 0 → ∃ t, feInverse p a = some t ∧ feMul p t a = fieldOne p)
    ∧ (a = 0 → feInverse p a = none) := by
  constructor
  · intro hne
    obtain ⟨t, hsome, _, hmul⟩ := feInverse_spec p hp a ha hne
    exact ⟨t, hsome, by rw [feMul, hmul, fieldOne, feInit]⟩
  · intro h0
    subst h0
    exact feInverse_zero p hp.one_lt

theorem claim_C5_field_inverse_witness :
    Nat.Prime 7 ∧ inRange 7 3 ∧ (3 : ℤ) ≠ 0
    ∧ (∃ t, feInverse 7 3 = some t ∧ feMul 7 t 3 = fieldOne 7) :=
  have hp : Nat.Prime 7 := by norm_num
  ⟨hp, by decide, by decide, (claim_C5_field_inverse 7 hp 3 (by decide)).1 (by decide)⟩

/-- Claim C9: every operation producing a `FieldElement` (construction from
any integer, add, sub, neg, mul, truediv, pow, inverse, random_element)
yields a stored value in `[0, order)`. -/
theorem claim_C9_reduced_representative (p : ℕ) (hp : 0 < p) (a b r : ℤ) (n : ℕ) :
    inRange p (feInit p a) ∧ inRange p (feAdd p a b) ∧ inRange p (feSub p a b)
    ∧ inRange p (feNeg p a) ∧ inRange p (feMul p a b)
    ∧ (∀ t, feTruediv p a b = some t → inRange p t)
    ∧ inRange p (fePow p a n)
    ∧ (∀ t, feInverse p a = some t → inRange p t)
    ∧ inRange p (feRandomElement p r) := by
  refine ⟨inRange_emod p hp a, inRange_emod p hp _, inRange_emod p hp _,
    inRange_emod p hp _, inRange_emod p hp _, ?_, ?_, ?_, inRange_emod p hp r⟩
  · intro t ht
    rw [feTruediv] at ht
    rcases h2 : feInverse p b with _ | i
    · rw [h2] at ht
      exact Option.noConfusion ht
    · rw [h2] at ht
      have ht2 := Option.some.inj ht
      rw [← ht2]
      exact inRange_emod p hp _
  · exact fePowAux_inRange p hp (n + 1) a (feInit p 1) n (inRange_emod p hp 1)
  · intro t ht
    rw [feInverse] at ht
    by_cases hc : (invLoop (a.toNat + 1) 0 1 p a.toNat).2 = 1
    · simp only [hc, if_true, Option.some_inj] at ht
      rw [← ht]
      exact inRange_emod p hp _
    · simp [hc] at ht

theorem claim_C9_reduced_representative_witness :
    0 < 7 ∧ inRange 7 (feInit 7 (-9)) ∧ inRange 7 (feAdd 7 5 6) ∧ inRange 7 (fePow 7 3 4) :=
  have h := claim_C9_reduced_representative 7 (by norm_num) (-9) 6 11 4
  ⟨by norm_num, (claim_C9_reduced_representative 7 (by norm_num) (-9) 6 11 4).1,
    (claim_C9_reduced_representative 7 (by norm_num) 5 6 11 4).2.1,
    (claim_C9_reduced_representative 7 (by norm_num) 3 6 11 4).2.2.2.2.2.2.1⟩

/-- Claim C10: for every field element `a`, including zero, `a ** 0` is the
field's one element: the square-and-multiply loop starts its result at
`FieldElement(field, 1)` and returns it untouched for exponent 0. -/
theorem claim_C10_pow_zero (p : ℕ) (a : ℤ) : fePow p a 0 = fieldOne p := by
  rw [fePow, fePowAux]
  simp [fieldOne]

/-! ## Trimming and the semantic map -/

@[simp] theorem toPoly_nil (p : ℕ) : toPoly p [] = 0 := rfl

theorem toPoly_cons (p : ℕ) (a : ℤ) (l : List ℤ) :
    toPoly p (a :: l) = Polynomial.C (a : ZMod p) + Polynomial.X * toPoly p l := rfl

theorem toPoly_eq_zero_of_trim_nil (p : ℕ) :
    ∀ l : List ℤ, trimZeros l = [] → toPoly p l = 0 := by
  intro l
  induction l with
  | nil => intro _; rfl
  | cons a l ih =>
    intro h
    rw [trimZeros] at h
    rcases htl : trimZeros l with _ | ⟨b, l2⟩
    · rw [htl] at h
      by_cases ha : a = 0
      · rw [toPoly_cons, ih htl, ha]
        simp
      · simp [ha] at h
    · rw [htl] at h
      exact absurd h (by simp)

theorem toPoly_trimZeros (p : ℕ) :
    ∀ l : List ℤ, toPoly p (trimZeros l) = toPoly p l := by
  intro l
  induction l with
  | nil => rfl
  | cons a l ih =>
    rw [trimZeros]
    rcases htl : trimZeros l with _ | ⟨b, l2⟩
    · rw [htl] at ih
      show toPoly p (if a = 0 then [] else [a]) = toPoly p (a :: l)
      by_cases ha : a = 0
      · rw [if_pos ha, toPoly_nil, toPoly_cons, ← ih, ha]
        simp
      · rw [if_neg ha, toPoly_cons, toPoly_cons, ← ih]
    · rw [htl] at ih
      show toPoly p (a :: b :: l2) = toPoly p (a :: l)
      rw [toPoly_cons p a (b :: l2), ih, toPoly_cons p a l]

theorem trimZeros_last_ne_zero :
    ∀ l : List ℤ, ∀ x, (trimZeros l).getLast? = some x → x ≠ 0 := by
  intro l
  induction l with
  | nil => intro x h; exact absurd h (by simp [trimZeros])
  | cons a l ih =>
    intro x h
    rw [trimZeros] at h
    rcases htl : trimZeros l with _ | ⟨b, l2⟩
    · rw [htl] at h
      by_cases ha : a = 0
      · simp [ha] at h
      · simp only [ha, if_false, List.getLast?_singleton, Option.some_inj] at h
        rw [← h]
        exact ha
    · rw [htl] at h
      rw [List.getLast?_cons_cons] at h
      exact ih x (htl ▸ h)

theorem trimZeros_idem : ∀ l : List ℤ, trimZeros (trimZeros l) = trimZeros l := by
  intro l
  induction l with
  | nil => rfl
  | cons a l ih =>
    rw [trimZeros]
    rcases htl : trimZeros l with _ | ⟨b, l2⟩
    · by_cases ha : a = 0
      · simp [ha, trimZeros]
      · simp [ha, trimZeros]
    · rw [htl] at ih
      rw [trimZeros, ih]

theorem trimZeros_mem : ∀ l : List ℤ, ∀ c ∈ trimZeros l, c ∈ l := by
  intro l
  induction l with
  | nil => intro c h; exact absurd h (by simp [trimZeros])
  | cons a l ih =>
    intro c h
    rw [trimZeros] at h
    rcases htl : trimZeros l with _ | ⟨b, l2⟩
    · rw [htl] at h
      by_cases ha : a = 0
      · simp [ha] at h
      · simp only [ha, if_false, List.mem_singleton] at h
        simp [h]
    · rw [htl] at h
      rcases List.mem_cons.mp h with h1 | h2
      · simp [h1]
      · exact List.mem_cons_of_mem a (ih c (htl ▸ h2))

theorem trimZeros_length_le : ∀ l : List ℤ, (trimZeros l).length ≤ l.length := by
  intro l
  induction l with
  | nil => simp [trimZeros]
  | cons a l ih =>
    rw [trimZeros]
    rcases htl : trimZeros l with _ | ⟨b, l2⟩
    · by_cases ha : a = 0 <;> simp [ha]
    · rw [htl] at ih
      simpa using ih

theorem toPoly_coeff (p : ℕ) :
    ∀ (l : List ℤ) (i : ℕ), (toPoly p l).coeff i = ((l.getD i 0 : ℤ) : ZMod p) := by
  intro l
  induction l with
  | nil => intro i; simp
  | cons a l ih =>
    intro i
    cases i with
    | zero =>
      rw [toPoly_cons]
      simp [Polynomial.mul_coeff_zero]
    | succ i =>
      rw [toPoly_cons]
      simp only [Polynomial.coeff_add, Polynomial.coeff_C_succ, Polynomial.coeff_X_mul,
        zero_add, List.getD_cons_succ]
      exact ih i

theorem trimmed_getD_last_ne_zero (l : List ℤ) (hne : l ≠ []) (ht : trimZeros l = l) :
    l.getD (l.length - 1) 0 ≠ 0 := by
  have hlast : l.getLast? = some (l.getLast hne) := List.getLast?_eq_getLast_of_ne_nil hne
  have hx : l.getLast hne ≠ 0 := by
    apply trimZeros_last_ne_zero l
    rw [ht]
    exact hlast
  have hlt : l.length - 1 < l.length := by
    have := List.length_pos.mpr hne
    omega
  rw [List.getD_eq_getElem _ _ hlt, ← List.getLast_eq_getElem]
  exact hx

theorem toPoly_ne_zero_of_trimmed (p : ℕ) (l : List ℤ) (hne : l ≠ [])
    (ht : trimZeros l = l) (hr : ∀ c ∈ l, 0 ≤ c ∧ c < (p : ℤ)) :
    toPoly p l ≠ 0 := by
  intro h0
  have hlt : l.length - 1 < l.length := by
    have := List.length_pos.mpr hne
    omega
  have hmem : l.getD (l.length - 1) 0 ∈ l := by
    rw [List.getD_eq_getElem _ _ hlt]
    exact List.getElem_mem hlt
  have hco := toPoly_coeff p l (l.length - 1)
  rw [h0, Polynomial.coeff_zero] at hco
  exact inRange_cast_ne_zero p _ (hr _ hmem) (trimmed_getD_last_ne_zero l hne ht) hco.symm

/-- On trimmed, reduced coefficient lists the semantic map is injective:
two `Polynomial` objects of the source denoting the same polynomial are
equal. -/
theorem toPoly_inj (p : ℕ) (l1 l2 : List ℤ)
    (ht1 : trimZeros l1 = l1) (ht2 : trimZeros l2 = l2)
    (hr1 : ∀ c ∈ l1, 0 ≤ c ∧ c < (p : ℤ)) (hr2 : ∀ c ∈ l2, 0 ≤ c ∧ c < (p : ℤ))
    (h : toPoly p l1 = toPoly p l2) : l1 = l2 := by
  rcases l1 with _ | ⟨a1, m1⟩
  · rcases l2 with _ | ⟨a2, m2⟩
    · rfl
    · exact absurd h.symm (toPoly_ne_zero_of_trimmed p _ (by simp) ht2 hr2)
  · rcases l2 with _ | ⟨a2, m2⟩
    · exact absurd h (toPoly_ne_zero_of_trimmed p _ (by simp) ht1 hr1)
    · set L1 : List ℤ := a1 :: m1 with hL1
      set L2 : List ℤ := a2 :: m2 with hL2
      have hp : 0 < p := by
        have := (hr1 a1 (by simp [hL1])).1
        have := (hr1 a1 (by simp [hL1])).2
        omega
      have hD : ∀ i, L1.getD i 0 = L2.getD i 0 := by
        intro i
        have hc := congrArg (fun q => Polynomial.coeff q i) h
        simp only [toPoly_coeff] at hc
        have hir : ∀ (l : List ℤ), (∀ c ∈ l, 0 ≤ c ∧ c < (p : ℤ)) → inRange p (l.getD i 0) := by
          intro l hr
          by_cases hi : i < l.length
          · rw [List.getD_eq_getElem _ _ hi]
            exact hr _ (List.getElem_mem hi)
          · rw [List.getD_eq_default _ _ (by omega)]
            exact ⟨le_refl 0, by exact_mod_cast hp⟩
        exact inRange_cast_inj p _ _ (hir L1 hr1) (hir L2 hr2) hc
      have hlen : L1.length = L2.length := by
        by_contra hne
        rcases Nat.lt_or_ge L1.length L2.length with hlt | hge
        · have h2 := trimmed_getD_last_ne_zero L2 (by simp [hL2]) ht2
          have h1 : L1.getD (L2.length - 1) 0 = 0 :=
            List.getD_eq_default _ _ (by omega)
          exact h2 (by rw [← hD, h1])
        · have hlt2 : L2.length < L1.length := by omega
          have h2 := trimmed_getD_last_ne_zero L1 (by simp [hL1]) ht1
          have h1 : L2.getD (L1.length - 1) 0 = 0 :=
            List.getD_eq_default _ _ (by omega)
          exact h2 (by rw [hD, h1])
      apply List.ext_getElem hlen
      intro i hi1 hi2
      have := hD i
      rwa [List.getD_eq_getElem _ _ hi1, List.getD_eq_getElem _ _ hi2] at this

/-! ## The source operations commute with the semantic map -/

theorem castAdd (p : ℕ) (a b : ℤ) :
    ((feAdd p a b : ℤ) : ZMod p) = (a : ZMod p) + (b : ZMod p) := by
  rw [feAdd, intCast_emod_zmod]
  push_cast
  ring

theorem castSub (p : ℕ) (a b : ℤ) :
    ((feSub p a b : ℤ) : ZMod p) = (a : ZMod p) - (b : ZMod p) := by
  rw [feSub, intCast_emod_zmod]
  push_cast
  ring

theorem castMul (p : ℕ) (a b : ℤ) :
    ((feMul p a b : ℤ) : ZMod p) = (a : ZMod p) * (b : ZMod p) := by
  rw [feMul, intCast_emod_zmod]
  push_cast
  ring

theorem toPoly_zipLongest_feAdd (p : ℕ) :
    ∀ l1 l2 : List ℤ,
      toPoly p (zipLongestWith (feAdd p) l1 l2) = toPoly p l1 + toPoly p l2 := by
  intro l1
  induction l1 with
  | nil =>
    intro l2
    rw [zipLongestWith]
    induction l2 with
    | nil => simp
    | cons b l2 ih =>
      rw [List.map_cons, toPoly_cons, ih, toPoly_cons, castAdd]
      simp only [toPoly_nil]
      push_cast
      ring
  | cons a l1 ih =>
    intro l2
    rcases l2 with _ | ⟨b, l2⟩
    · rw [zipLongestWith, toPoly_cons, ih [], toPoly_cons, castAdd]
      simp only [toPoly_nil, add_zero]
      push_cast
      ring
    · rw [zipLongestWith, toPoly_cons, ih l2, toPoly_cons, toPoly_cons, castAdd, map_add]
      ring

theorem toPoly_zipLongest_feSub (p : ℕ) :
    ∀ l1 l2 : List ℤ,
      toPoly p (zipLongestWith (feSub p) l1 l2) = toPoly p l1 - toPoly p l2 := by
  intro l1
  induction l1 with
  | nil =>
    intro l2
    rw [zipLongestWith]
    induction l2 with
    | nil => simp
    | cons b l2 ih =>
      rw [List.map_cons, toPoly_cons, ih, toPoly_cons, castSub]
      simp only [toPoly_nil]
      push_cast
      rw [map_sub, map_zero]
      ring
  | cons a l1 ih =>
    intro l2
    rcases l2 with _ | ⟨b, l2⟩
    · rw [zipLongestWith, toPoly_cons, ih [], toPoly_cons, castSub]
      simp only [toPoly_nil]
      push_cast
      ring
    · rw [zipLongestWith, toPoly_cons, ih l2, toPoly_cons, toPoly_cons, castSub, map_sub]
      ring

theorem toPoly_zipLongest_add (p : ℕ) :
    ∀ l1 l2 : List ℤ,
      toPoly p (zipLongestWith (fun x y => x + y) l1 l2) = toPoly p l1 + toPoly p l2 := by
  intro l1
  induction l1 with
  | nil =>
    intro l2
    rw [zipLongestWith]
    induction l2 with
    | nil => simp
    | cons b l2 ih =>
      rw [List.map_cons, toPoly_cons, ih, toPoly_cons]
      simp only [toPoly_nil]
      push_cast
      ring
  | cons a l1 ih =>
    intro l2
    rcases l2 with _ | ⟨b, l2⟩
    · rw [zipLongestWith, toPoly_cons, ih [], toPoly_cons]
      simp [toPoly_nil]
    · rw [zipLongestWith, toPoly_cons, ih l2, toPoly_cons, toPoly_cons]
      push_cast
      rw [map_add]
      ring

theorem toPoly_map_feInit (p : ℕ) :
    ∀ l : List ℤ, toPoly p (l.map (feInit p)) = toPoly p l := by
  intro l
  induction l with
  | nil => rfl
  | cons a l ih =>
    rw [List.map_cons, toPoly_cons, ih, feInit, intCast_emod_zmod, toPoly_cons]

theorem toPoly_map_scalar (p : ℕ) (s : ℤ) :
    ∀ l : List ℤ,
      toPoly p (l.map (fun c => feMul p c s)) = toPoly p l * Polynomial.C (s : ZMod p) := by
  intro l
  induction l with
  | nil => simp
  | cons a l ih =>
    rw [List.map_cons, toPoly_cons, ih, castMul, toPoly_cons, map_mul]
    ring

theorem toPoly_convRaw (p : ℕ) :
    ∀ l1 l2 : List ℤ, toPoly p (convRaw l1 l2) = toPoly p l1 * toPoly p l2 := by
  intro l1
  induction l1 with
  | nil => intro l2; simp [convRaw]
  | cons a l1 ih =>
    intro l2
    rw [convRaw, toPoly_zipLongest_add, toPoly_cons, toPoly_cons]
    have hmap : toPoly p (l2.map (fun c => a * c)) = Polynomial.C (a : ZMod p) * toPoly p l2 := by
      induction l2 with
      | nil => simp
      | cons b l2 ih2 =>
        rw [List.map_cons, toPoly_cons, ih2, toPoly_cons]
        push_cast
        rw [map_mul]
        ring
    rw [hmap, ih]
    push_cast
    simp only [map_zero]
    ring

/-- Horner evaluation agrees with polynomial evaluation in `ZMod p`. -/
theorem polyEval_cast (p : ℕ) (f : PyPoly) (x : ℤ) :
    ((polyEval p f x : ℤ) : ZMod p) = (toPoly p f.coeff).eval (x : ZMod p) := by
  rw [polyEval]
  induction f.coeff with
  | nil => simp
  | cons a l ih =>
    rw [List.foldr_cons, toPoly_cons, intCast_emod_zmod]
    push_cast
    rw [ih, feInit, intCast_emod_zmod]
    simp only [Polynomial.eval_add, Polynomial.eval_C, Polynomial.eval_mul, Polynomial.eval_X]
    ring

theorem polyEval_inRange (p : ℕ) (hp : 0 < p) (f : PyPoly) (x : ℤ) :
    inRange p (polyEval p f x) := by
  rw [polyEval]
  rcases f.coeff with _ | ⟨a, l⟩
  · simpa [inRange] using hp
  · exact inRange_emod p hp _

/-! ## Well-formedness of constructed polynomials -/

theorem toPoly_mkPoly (p : ℕ) (l : List ℤ) :
    toPoly p (mkPoly p l).coeff = toPoly p l := by
  rw [mkPoly]
  exact toPoly_trimZeros p l

theorem mkPoly_wf (p : ℕ) (l : List ℤ) (hr : ∀ c ∈ l, 0 ≤ c ∧ c < (p : ℤ)) :
    (mkPoly p l).wf p := by
  refine ⟨trimZeros_idem l, ?_⟩
  intro c hc
  exact hr c (trimZeros_mem l c hc)

theorem zipLongestWith_mem (f : ℤ → ℤ → ℤ) :
    ∀ l1 l2 : List ℤ, ∀ c ∈ zipLongestWith f l1 l2, ∃ a b, c = f a b := by
  intro l1
  induction l1 with
  | nil =>
    intro l2 c hc
    rw [zipLongestWith] at hc
    obtain ⟨b, _, hb⟩ := List.mem_map.mp hc
    exact ⟨0, b, hb.symm⟩
  | cons a l1 ih =>
    intro l2 c hc
    rcases l2 with _ | ⟨b, l2⟩
    · rw [zipLongestWith] at hc
      rcases List.mem_cons.mp hc with h | h
      · exact ⟨a, 0, h⟩
      · exact ih [] c h
    · rw [zipLongestWith] at hc
      rcases List.mem_cons.mp hc with h | h
      · exact ⟨a, b, h⟩
      · exact ih l2 c h

theorem polyAdd_wf (p : ℕ) (hp : 0 < p) (f g : PyPoly) : (polyAdd p f g).wf p := by
  apply mkPoly_wf
  intro c hc
  obtain ⟨a, b, hab⟩ := zipLongestWith_mem (feAdd p) f.coeff g.coeff c hc
  rw [hab]
  exact inRange_emod p hp _

theorem polySub_wf (p : ℕ) (hp : 0 < p) (f g : PyPoly) : (polySub p f g).wf p := by
  apply mkPoly_wf
  intro c hc
  obtain ⟨a, b, hab⟩ := zipLongestWith_mem (feSub p) f.coeff g.coeff c hc
  rw [hab]
  exact inRange_emod p hp _

theorem polyMul_wf (p : ℕ) (hp : 0 < p) (f g : PyPoly) : (polyMul p f g).wf p := by
  apply mkPoly_wf
  intro c hc
  obtain ⟨a, _, hab⟩ := List.mem_map.mp hc
  rw [← hab]
  exact inRange_emod p hp _

theorem polyScalarMul_wf (p : ℕ) (hp : 0 < p) (f : PyPoly) (s : ℤ) :
    (polyScalarMul p f s).wf p := by
  apply mkPoly_wf
  intro c hc
  obtain ⟨a, _, hab⟩ := List.mem_map.mp hc
  rw [← hab]
  exact inRange_emod p hp _

theorem toPoly_polyAdd (p : ℕ) (f g : PyPoly) :
    toPoly p (polyAdd p f g).coeff = toPoly p f.coeff + toPoly p g.coeff := by
  rw [polyAdd, toPoly_mkPoly, toPoly_zipLongest_feAdd]

theorem toPoly_polySub (p : ℕ) (f g : PyPoly) :
    toPoly p (polySub p f g).coeff = toPoly p f.coeff - toPoly p g.coeff := by
  rw [polySub, toPoly_mkPoly, toPoly_zipLongest_feSub]

theorem toPoly_polyMul (p : ℕ) (f g : PyPoly) :
    toPoly p (polyMul p f g).coeff = toPoly p f.coeff * toPoly p g.coeff := by
  rw [polyMul, toPoly_mkPoly, toPoly_map_feInit, toPoly_convRaw]

theorem toPoly_polyScalarMul (p : ℕ) (f : PyPoly) (s : ℤ) :
    toPoly p (polyScalarMul p f s).coeff = toPoly p f.coeff * Polynomial.C (s : ZMod p) := by
  rw [polyScalarMul, toPoly_mkPoly, toPoly_map_scalar]

/-- Two well-formed polynomial objects with the same image are equal. -/
theorem pyPoly_eq_of_toPoly_eq (p : ℕ) (f g : PyPoly) (hf : f.wf p) (hg : g.wf p)
    (h : toPoly p f.coeff = toPoly p g.coeff) : f = g := by
  rcases f with ⟨lf⟩
  rcases g with ⟨lg⟩
  have := toPoly_inj p lf lg hf.1 hg.1 hf.2 hg.2 h
  simpa using this

/-! ## Lemmas for the division loop -/

theorem toPoly_append (p : ℕ) :
    ∀ l1 l2 : List ℤ,
      toPoly p (l1 ++ l2) = toPoly p l1 + Polynomial.X ^ l1.length * toPoly p l2 := by
  intro l1
  induction l1 with
  | nil => intro l2; simp
  | cons a l1 ih =>
    intro l2
    rw [List.cons_append, toPoly_cons, ih, toPoly_cons, List.length_cons, pow_succ]
    ring

theorem toPoly_take_drop (p : ℕ) (l : List ℤ) (n : ℕ) :
    toPoly p l = toPoly p (l.take n) + Polynomial.X ^ (l.take n).length * toPoly p (l.drop n) := by
  conv_lhs => rw [← List.take_append_drop n l]
  exact toPoly_append p _ _

theorem toPoly_set_feAdd (p : ℕ) (t : ℤ) :
    ∀ (l : List ℤ) (i : ℕ), i < l.length →
      toPoly p (l.set i (feAdd p (l.getD i 0) t))
        = toPoly p l + Polynomial.C (t : ZMod p) * Polynomial.X ^ i := by
  intro l
  induction l with
  | nil => intro i hi; simp at hi
  | cons a l ih =>
    intro i hi
    cases i with
    | zero =>
      rw [List.set_cons_zero, List.getD_cons_zero, toPoly_cons, toPoly_cons, castAdd]
      rw [pow_zero, map_add]
      ring
    | succ i =>
      rw [List.set_cons_succ, List.getD_cons_succ, toPoly_cons, toPoly_cons,
        ih i (by simpa using hi), pow_succ]
      ring

theorem toPoly_zipWith_sub (p : ℕ) (t : ℤ) :
    ∀ l1 l2 : List ℤ, l1.length = l2.length →
      toPoly p (List.zipWith (fun a b => feSub p a (feMul p t b)) l1 l2)
        = toPoly p l1 - Polynomial.C (t : ZMod p) * toPoly p l2 := by
  intro l1
  induction l1 with
  | nil =>
    intro l2 h
    rcases l2 with _ | ⟨b, l2⟩
    · simp
    · simp at h
  | cons a l1 ih =>
    intro l2 h
    rcases l2 with _ | ⟨b, l2⟩
    · simp at h
    · rw [List.zipWith_cons_cons, toPoly_cons, ih l2 (by simpa using h), toPoly_cons,
        toPoly_cons, castSub, castMul, map_sub, map_mul]
      ring

theorem zipWith_mem (f : ℤ → ℤ → ℤ) :
    ∀ l1 l2 : List ℤ, ∀ c ∈ List.zipWith f l1 l2, ∃ a b, c = f a b := by
  intro l1
  induction l1 with
  | nil => intro l2 c hc; simp at hc
  | cons a l1 ih =>
    intro l2 c hc
    rcases l2 with _ | ⟨b, l2⟩
    · simp at hc
    · rw [List.zipWith_cons_cons] at hc
      rcases List.mem_cons.mp hc with h | h
      · exact ⟨a, b, h⟩
      · exact ih l2 c h

theorem trimZeros_length_lt :
    ∀ l : List ℤ, l.getLast? = some 0 → (trimZeros l).length < l.length := by
  intro l
  induction l with
  | nil => intro h; simp at h
  | cons a l ih =>
    intro h
    rcases l with _ | ⟨b, m⟩
    · have ha : a = 0 := by simpa using h
      subst ha
      simp [trimZeros]
    · rw [List.getLast?_cons_cons] at h
      have ihh := ih h
      rw [trimZeros]
      rcases htl : trimZeros (b :: m) with _ | ⟨c, l2⟩
      · by_cases ha : a = 0
        · simp [ha]
        · simp [ha]
      · rw [htl] at ihh
        simp only [List.length_cons]
        simp only [List.length_cons] at ihh
        omega

theorem getLastD_eq_getD_last (l : List ℤ) :
    l.getLastD 0 = l.getD (l.length - 1) 0 := by
  rw [List.getLastD_eq_getLast?, List.getLast?_eq_getElem?, List.getD_eq_getElem?_getD]

theorem zipWith_getLast?_eq (f : ℤ → ℤ → ℤ) :
    ∀ l1 l2 : List ℤ, l1.length = l2.length → l1 ≠ [] →
      (List.zipWith f l1 l2).getLast? = some (f (l1.getLastD 0) (l2.getLastD 0)) := by
  intro l1
  induction l1 with
  | nil => intro l2 h hne; exact absurd rfl hne
  | cons a l1 ih =>
    intro l2 h hne
    rcases l2 with _ | ⟨b, l2⟩
    · simp at h
    · rcases l1 with _ | ⟨a2, l1b⟩
      · rcases l2 with _ | ⟨b2, l2b⟩
        · simp
        · simp at h
      · rcases l2 with _ | ⟨b2, l2b⟩
        · simp at h
        · have ihh := ih (b2 :: l2b) (by simpa using h) (by simp)
          rw [List.zipWith_cons_cons] at ihh
          rw [List.zipWith_cons_cons, List.zipWith_cons_cons, List.getLast?_cons_cons, ihh]
          simp [List.getLastD_cons]

theorem getLastD_drop :
    ∀ (l : List ℤ) (n : ℕ), n < l.length → (l.drop n).getLastD 0 = l.getLastD 0 := by
  intro l
  induction l with
  | nil => intro n h; simp at h
  | cons a l ih =>
    intro n h
    cases n with
    | zero => simp
    | succ n =>
      rw [List.drop_succ_cons]
      have hlt : n < l.length := by simpa using h
      rw [ih n hlt]
      rcases l with _ | ⟨b, m⟩
      · simp at hlt
      · simp [List.getLastD_cons]

/-- The head of the running remainder is cancelled by each pass: the last
entry of the updated window is zero (this is what makes the Python loop
terminate). -/
theorem divmod_window_last_zero (p : ℕ) (hp : 1 < p) (pol2 : List ℤ) (g_inv : ℤ)
    (rem : List ℤ) (h2ne : pol2 ≠ []) (hge : pol2.length ≤ rem.length)
    (hremne : rem ≠ [])
    (hrr : ∀ c ∈ rem, 0 ≤ c ∧ c < (p : ℤ))
    (h2r : ∀ c ∈ pol2, 0 ≤ c ∧ c < (p : ℤ))
    (hinv : (g_inv * pol2.getLastD 0) % (p : ℤ) = 1 % (p : ℤ)) :
    (List.zipWith (fun a b => feSub p a (feMul p (divmodTmp p g_inv rem) b))
        (rem.drop (rem.length - pol2.length)) pol2).getLast? = some 0 := by
  have h2pos : 0 < pol2.length := List.length_pos.mpr h2ne
  have hrpos : 0 < rem.length := List.length_pos.mpr hremne
  have hdroplen : (rem.drop (rem.length - pol2.length)).length = pol2.length := by
    rw [List.length_drop]
    omega
  have hzlen : (List.zipWith (fun a b => feSub p a (feMul p (divmodTmp p g_inv rem) b))
      (rem.drop (rem.length - pol2.length)) pol2).length = pol2.length := by
    rw [List.length_zipWith, hdroplen, min_self]
  have hdropne : rem.drop (rem.length - pol2.length) ≠ [] := by
    intro hc
    rw [hc] at hdroplen
    simp at hdroplen
    omega
  rw [zipWith_getLast?_eq _ _ _ hdroplen hdropne]
  congr 1
  rw [getLastD_drop rem _ (by omega), divmodTmp]
  have hval : inRange p (feSub p (rem.getLastD 0)
      (feMul p (feMul p (rem.getLastD 0) g_inv) (pol2.getLastD 0))) :=
    inRange_emod p (by omega) _
  have hcast : ((feSub p (rem.getLastD 0)
      (feMul p (feMul p (rem.getLastD 0) g_inv) (pol2.getLastD 0)) : ℤ) : ZMod p) = 0 := by
    rw [castSub, castMul, castMul]
    have hone : ((g_inv : ℤ) : ZMod p) * ((pol2.getLastD 0 : ℤ) : ZMod p) = 1 := by
      have := congrArg (fun x : ℤ => (x : ZMod p)) hinv
      simp only [intCast_emod_zmod] at this
      push_cast at this
      rw [this]
    calc ((rem.getLastD 0 : ℤ) : ZMod p)
          - ((rem.getLastD 0 : ℤ) : ZMod p) * ((g_inv : ℤ) : ZMod p)
            * ((pol2.getLastD 0 : ℤ) : ZMod p)
        = ((rem.getLastD 0 : ℤ) : ZMod p) * (1 - ((g_inv : ℤ) : ZMod p)
            * ((pol2.getLastD 0 : ℤ) : ZMod p)) := by ring
      _ = 0 := by rw [hone]; ring
  have h0range : inRange p (0 : ℤ) := ⟨le_refl 0, by exact_mod_cast (by omega : 0 < p)⟩
  exact inRange_cast_inj p _ 0 hval h0range (by rw [hcast]; norm_num)

theorem divmodRemSub_drop (p : ℕ) (pol2 : List ℤ) (g_inv : ℤ) (rem : List ℤ)
    (hge : pol2.length ≤ rem.length) :
    (divmodRemSub p pol2 g_inv rem).drop (rem.length - pol2.length)
      = List.zipWith (fun a b => feSub p a (feMul p (divmodTmp p g_inv rem) b))
          (rem.drop (rem.length - pol2.length)) pol2 := by
  rw [divmodRemSub]
  exact List.drop_left' (by rw [List.length_take]; omega)

/-- Invariant of the `__divmod__` loop, by induction on the iteration
bound: the value `quotient * divisor + rem` (in the image) never changes,
all entries stay reduced, the quotient list keeps its length, the final
remainder is shorter than the divisor, and every pass strictly shortens the
remainder (so the bound is never exhausted). -/
theorem divmodLoop_spec (p : ℕ) (hp : 1 < p) (pol2 : List ℤ) (g_inv : ℤ)
    (h2ne : pol2 ≠ [])
    (h2r : ∀ c ∈ pol2, 0 ≤ c ∧ c < (p : ℤ))
    (hinv : (g_inv * pol2.getLastD 0) % (p : ℤ) = 1 % (p : ℤ)) :
    ∀ n : ℕ, ∀ rem quot : List ℤ, rem.length < n →
      (∀ c ∈ rem, 0 ≤ c ∧ c < (p : ℤ)) →
      (∀ c ∈ quot, 0 ≤ c ∧ c < (p : ℤ)) →
      rem.length < quot.length + pol2.length →
      toPoly p (divmodLoop p pol2 g_inv n quot rem).1 * toPoly p pol2
          + toPoly p (divmodLoop p pol2 g_inv n quot rem).2
          = toPoly p quot * toPoly p pol2 + toPoly p rem
        ∧ (∀ c ∈ (divmodLoop p pol2 g_inv n quot rem).1, 0 ≤ c ∧ c < (p : ℤ))
        ∧ (∀ c ∈ (divmodLoop p pol2 g_inv n quot rem).2, 0 ≤ c ∧ c < (p : ℤ))
        ∧ (divmodLoop p pol2 g_inv n quot rem).2.length < pol2.length
        ∧ (divmodLoop p pol2 g_inv n quot rem).1.length = quot.length := by
  intro n
  induction n with
  | zero =>
    intro rem quot hn hrr hqr hlen
    omega
  | succ n ih =>
    intro rem quot hn hrr hqr hlen
    by_cases hbase : rem.length < pol2.length
    · rw [divmodLoop, if_pos hbase]
      exact ⟨rfl, hqr, hrr, hbase, rfl⟩
    · push_neg at hbase
      have h2pos : 0 < pol2.length := List.length_pos.mpr h2ne
      have hremne : rem ≠ [] := by
        intro hc
        rw [hc] at hbase
        simp only [List.length_nil, Nat.le_zero] at hbase
        exact h2ne (List.length_eq_zero.mp hbase)
      have hdroplen : (rem.drop (rem.length - pol2.length)).length = pol2.length := by
        rw [List.length_drop]
        omega
      have hzlast := divmod_window_last_zero p hp pol2 g_inv rem h2ne hbase hremne hrr h2r hinv
      have hzlen : (List.zipWith (fun a b => feSub p a (feMul p (divmodTmp p g_inv rem) b))
          (rem.drop (rem.length - pol2.length)) pol2).length = pol2.length := by
        rw [List.length_zipWith, hdroplen, min_self]
      have hsubdrop := divmodRemSub_drop p pol2 g_inv rem hbase
      have htakelen : (rem.take (rem.length - pol2.length)).length
          = rem.length - pol2.length := by
        rw [List.length_take]
        omega
      have hsteplen : (divmodRemStep p pol2 g_inv rem).length < rem.length := by
        rw [divmodRemStep, List.length_append, hsubdrop, htakelen]
        have := trimZeros_length_lt _ hzlast
        rw [hzlen] at this
        omega
      rw [divmodLoop, if_neg (by omega)]
      have hq2len : (divmodQuotStep p pol2 g_inv quot rem).length = quot.length := by
        rw [divmodQuotStep, List.length_set]
      have hq2red : ∀ c ∈ divmodQuotStep p pol2 g_inv quot rem, 0 ≤ c ∧ c < (p : ℤ) := by
        intro c hc
        rcases List.mem_or_eq_of_mem_set hc with h | h
        · exact hqr c h
        · rw [h]
          exact inRange_emod p (by omega) _
      have hr3red : ∀ c ∈ divmodRemStep p pol2 g_inv rem, 0 ≤ c ∧ c < (p : ℤ) := by
        intro c hc
        rw [divmodRemStep] at hc
        rcases List.mem_append.mp hc with h | h
        · exact hrr c (List.take_subset _ _ h)
        · rw [hsubdrop] at h
          obtain ⟨x, y, hxy⟩ := zipWith_mem _ _ _ c (trimZeros_mem _ c h)
          rw [hxy]
          exact inRange_emod p (by omega) _
      have hih := ih (divmodRemStep p pol2 g_inv rem) (divmodQuotStep p pol2 g_inv quot rem)
        (by omega) hr3red hq2red (by rw [hq2len]; omega)
      refine ⟨?_, hih.2.1, hih.2.2.1, hih.2.2.2.1, by rw [hih.2.2.2.2, hq2len]⟩
      rw [hih.1]
      have hdlt : rem.length - pol2.length < quot.length := by omega
      have hquot2 : toPoly p (divmodQuotStep p pol2 g_inv quot rem)
          = toPoly p quot
            + Polynomial.C ((divmodTmp p g_inv rem : ℤ) : ZMod p)
              * Polynomial.X ^ (rem.length - pol2.length) := by
        rw [divmodQuotStep]
        exact toPoly_set_feAdd p _ quot _ hdlt
      have hrem3 : toPoly p (divmodRemStep p pol2 g_inv rem)
          = toPoly p rem
            - Polynomial.C ((divmodTmp p g_inv rem : ℤ) : ZMod p)
              * Polynomial.X ^ (rem.length - pol2.length) * toPoly p pol2 := by
        rw [divmodRemStep, toPoly_append, hsubdrop, toPoly_trimZeros, htakelen,
          toPoly_zipWith_sub p _ _ _ hdroplen]
        conv_rhs => rw [toPoly_take_drop p rem (rem.length - pol2.length), htakelen]
        ring
      rw [hquot2, hrem3]
      ring

theorem toPoly_replicate_zero (p : ℕ) :
    ∀ k : ℕ, toPoly p (List.replicate k (fieldZero p)) = 0 := by
  intro k
  induction k with
  | zero => rfl
  | succ k ih =>
    rw [List.replicate_succ, toPoly_cons, ih, fieldZero, feInit]
    simp

theorem getLastD_mem (l : List ℤ) (hne : l ≠ []) : l.getLastD 0 ∈ l := by
  have hpos : 0 < l.length := List.length_pos.mpr hne
  rw [getLastD_eq_getD_last, List.getD_eq_getElem _ _ (by omega)]
  exact List.getElem_mem (by omega)

/-- Specification of `Polynomial.__divmod__` for a well-formed nonzero
dividend and a well-formed nonzero divisor over a prime-order field: it
returns a pair of `Polynomial` objects, the results are well formed,
`quotient * divisor + remainder` denotes the dividend, the remainder is
shorter than the divisor, and the quotient is no longer than
`len(dividend) - len(divisor) + 1`.  (For a zero dividend it instead
returns the bare lists `([], [])`.) -/
theorem polyDivmod_spec (p : ℕ) (hp : p.Prime) (f g : PyPoly)
    (hf : f.wf p) (hg : g.wf p) (hf0 : f.coeff ≠ []) (hg0 : g.coeff ≠ []) :
    ∃ q r, polyDivmod p f g = some (DivmodResult.polys q r) ∧ q.wf p ∧ r.wf p ∧
      toPoly p q.coeff * toPoly p g.coeff + toPoly p r.coeff = toPoly p f.coeff ∧
      r.coeff.length < g.coeff.length ∧
      (g.coeff.length ≤ f.coeff.length →
        q.coeff.length + g.coeff.length ≤ f.coeff.length + 1) := by
  have hppos : 0 < p := hp.pos
  have hgpos : 0 < g.coeff.length := List.length_pos.mpr hg0
  · -- the dividend is nonzero: the loop runs
    have htop_mem : g.coeff.getLastD 0 ∈ g.coeff := getLastD_mem _ hg0
    have htop_red := hg.2 _ htop_mem
    have hlastsome : g.coeff.getLast? = some (g.coeff.getLast hg0) :=
      List.getLast?_eq_getLast_of_ne_nil hg0
    have htopD : g.coeff.getLastD 0 = g.coeff.getLast hg0 := by
      rw [List.getLastD_eq_getLast?, hlastsome]
      rfl
    have htop_ne : g.coeff.getLastD 0 ≠ 0 := by
      rw [htopD]
      refine trimZeros_last_ne_zero g.coeff _ ?_
      rw [hg.1]
      exact hlastsome
    obtain ⟨g_inv, hgi_some, hgi_range, hgi_mul⟩ :=
      feInverse_spec p hp _ htop_red htop_ne
    have hinv : (g_inv * g.coeff.getLastD 0) % (p : ℤ) = 1 % (p : ℤ) := hgi_mul
    have hquot_red : ∀ c ∈ List.replicate (f.coeff.length - g.coeff.length + 1) (fieldZero p),
        0 ≤ c ∧ c < (p : ℤ) := by
      intro c hc
      rw [List.eq_of_mem_replicate hc, fieldZero, feInit]
      exact inRange_emod p hppos 0
    have hloop := divmodLoop_spec p hp.one_lt g.coeff g_inv hg0 hg.2 hinv
      (f.coeff.length + 1) f.coeff
      (List.replicate (f.coeff.length - g.coeff.length + 1) (fieldZero p))
      (by omega) hf.2 hquot_red
      (by rw [List.length_replicate]; omega)
    refine ⟨mkPoly p (trimZeros (divmodLoop p g.coeff g_inv (f.coeff.length + 1)
        (List.replicate (f.coeff.length - g.coeff.length + 1) (fieldZero p)) f.coeff).1),
      mkPoly p (divmodLoop p g.coeff g_inv (f.coeff.length + 1)
        (List.replicate (f.coeff.length - g.coeff.length + 1) (fieldZero p)) f.coeff).2,
      ?_, ?_, ?_, ?_, ?_, ?_⟩
    · rw [polyDivmod]
      simp only [hg.1, hf.1]
      rw [if_neg (by simpa using hg0), if_neg (by simpa using hf0), hgi_some]
    · exact mkPoly_wf p _ (fun c hc => hloop.2.1 c (trimZeros_mem _ c hc))
    · exact mkPoly_wf p _ (fun c hc => hloop.2.2.1 c hc)
    · rw [toPoly_mkPoly, toPoly_mkPoly, toPoly_trimZeros, hloop.1, toPoly_replicate_zero]
      ring
    · calc (mkPoly p _).coeff.length
          ≤ (divmodLoop p g.coeff g_inv (f.coeff.length + 1)
              (List.replicate (f.coeff.length - g.coeff.length + 1) (fieldZero p))
              f.coeff).2.length := trimZeros_length_le _
        _ < g.coeff.length := hloop.2.2.2.1
    · intro hle
      have h1 : (mkPoly p (trimZeros (divmodLoop p g.coeff g_inv (f.coeff.length + 1)
          (List.replicate (f.coeff.length - g.coeff.length + 1) (fieldZero p))
          f.coeff).1)).coeff.length
          ≤ f.coeff.length - g.coeff.length + 1 := by
        calc (mkPoly p _).coeff.length
            ≤ (trimZeros (divmodLoop p g.coeff g_inv (f.coeff.length + 1)
                (List.replicate (f.coeff.length - g.coeff.length + 1) (fieldZero p))
                f.coeff).1).length := trimZeros_length_le _
          _ ≤ (divmodLoop p g.coeff g_inv (f.coeff.length + 1)
                (List.replicate (f.coeff.length - g.coeff.length + 1) (fieldZero p))
                f.coeff).1.length := trimZeros_length_le _
          _ = f.coeff.length - g.coeff.length + 1 := by
              rw [hloop.2.2.2.2, List.length_replicate]
      omega

/-- Claim C2 (amended): for every nonzero polynomial `f` and nonzero `g`
over the same field, `divmod(f, g)` returns a pair of `Polynomial` objects
`(q, r)` with `q*g + r == f` (the source's own operations and equality) and
`degree(r) < degree(g)`; for the zero divisor it fails.  For the zero
dividend the original claim is false: the source returns the pair
`([], [])` of bare Python lists, not `Polynomial` objects. -/
theorem claim_C2_divmod_correct (p : ℕ) (hp : p.Prime) (f g : PyPoly)
    (hf : f.wf p) (hg : g.wf p) :
    (g.coeff = [] → polyDivmod p f g = none)
    ∧ (g.coeff ≠ [] → f.coeff = [] →
        polyDivmod p f g = some (DivmodResult.bare [] []))
    ∧ (g.coeff ≠ [] → f.coeff ≠ [] →
        ∃ q r, polyDivmod p f g = some (DivmodResult.polys q r)
          ∧ polyAdd p (polyMul p q g) r = f ∧ polyDegree r < polyDegree g) := by
  refine ⟨?_, ?_, ?_⟩
  · intro hg0
    rw [polyDivmod]
    simp [hg0, trimZeros]
  · intro hg0 hf0
    rw [polyDivmod]
    simp only [hg.1, hf0]
    rw [if_neg (by simpa using hg0)]
    simp [trimZeros]
  · intro hg0 hf0
    obtain ⟨q, r, hsome, hqwf, hrwf, heq, hlen, _⟩ :=
      polyDivmod_spec p hp f g hf hg hf0 hg0
    refine ⟨q, r, hsome, ?_, ?_⟩
    · apply pyPoly_eq_of_toPoly_eq p _ _ (polyAdd_wf p hp.pos _ _) hf
      rw [toPoly_polyAdd, toPoly_polyMul, heq]
    · rw [polyDegree, polyDegree, hrwf.1, hg.1]
      have h1 : (r.coeff.length : ℤ) < (g.coeff.length : ℤ) := by exact_mod_cast hlen
      omega

/-- Counterexample to the original claim C2: dividing the zero polynomial
by `x` over F_7 does not produce a pair of `Polynomial` objects — the
source's line 287 returns the bare Python lists `([], [])`, on which the
claimed `q*g + r == f` and `r.degree()` are not even well-formed
expressions (`TypeError` / `AttributeError`). -/
theorem claim_C2_counterexample :
    polyDivmod 7 ⟨[]⟩ ⟨[0, 1]⟩ = some (DivmodResult.bare [] [])
    ∧ ∀ q r : PyPoly, polyDivmod 7 ⟨[]⟩ ⟨[0, 1]⟩ ≠ some (DivmodResult.polys q r) := by
  constructor
  · rfl
  · intro q r h
    rw [show polyDivmod 7 ⟨[]⟩ ⟨[0, 1]⟩ = some (DivmodResult.bare [] []) from rfl] at h
    exact DivmodResult.noConfusion (Option.some.inj h)

theorem claim_C2_divmod_correct_witness :
    Nat.Prime 7 ∧ (PyPoly.mk [6, 0, 1]).wf 7 ∧ (PyPoly.mk [6, 1]).wf 7
    ∧ (∃ q r, polyDivmod 7 ⟨[6, 0, 1]⟩ ⟨[6, 1]⟩ = some (DivmodResult.polys q r)
        ∧ polyAdd 7 (polyMul 7 q ⟨[6, 1]⟩) r = ⟨[6, 0, 1]⟩
        ∧ polyDegree r < polyDegree ⟨[6, 1]⟩) :=
  have hp : Nat.Prime 7 := by norm_num
  ⟨hp, by decide, by decide,
    (claim_C2_divmod_correct 7 hp ⟨[6, 0, 1]⟩ ⟨[6, 1]⟩ (by decide) (by decide)).2.2
      (by decide) (by decide)⟩

theorem sum_range_map_eq_zipWith (p : ℕ) :
    ∀ (l1 : List ℤ) (l2 : List (GroupElt p)), l1.length ≤ l2.length →
      ((List.range l1.length).map (fun i => gsmul p (l1.getD i 0) (l2.getD i 0))).sum
        = (List.zipWith (fun c P => gsmul p c P) l1 l2).sum := by
  intro l1
  induction l1 with
  | nil => intro l2 h; simp
  | cons a l1 ih =>
    intro l2 h
    rcases l2 with _ | ⟨b, l2⟩
    · simp at h
    · rw [List.length_cons, List.range_succ_eq_map, List.map_cons, List.map_map,
        List.zipWith_cons_cons, List.sum_cons, List.sum_cons, ← ih l2 (by simpa using h)]
      simp [Function.comp_def]

/-- Claim C8: `commit(H, f)` fails exactly when the basis is shorter than
`f`'s coefficient list; otherwise it returns the linear combination
`sum of f.coeff[i] * H[i]` over the group. -/
theorem claim_C8_commit_spec (p : ℕ) (H : List (GroupElt p)) (f : PyPoly) :
    (commit p H f = none ↔ H.length < f.coeff.length)
    ∧ (f.coeff.length ≤ H.length →
        commit p H f = some ((List.zipWith (fun c P => gsmul p c P) f.coeff H).sum)) := by
  constructor
  · rw [commit]
    by_cases h : H.length ≥ f.coeff.length
    · rw [if_pos h]
      simp
      omega
    · rw [if_neg h]
      simp
      omega
  · intro h
    rw [commit, if_pos h]
    rw [sum_range_map_eq_zipWith p f.coeff H h]

theorem claim_C8_commit_spec_witness :
    commit 5 [(1 : GroupElt 5), 2] ⟨[3, 4]⟩
      = some ((List.zipWith (fun c P => gsmul 5 c P) [3, 4] [(1 : GroupElt 5), 2]).sum) :=
  (claim_C8_commit_spec 5 [(1 : GroupElt 5), 2] ⟨[3, 4]⟩).2 (by decide)

/-- Claim C4, the failing input: for a constant polynomial `f` (here the
constant 3 over the bls12-381 scalar field, the order used by src/kzg.py)
and `u = 0`, `v = 3`, we have `f(u) = v`, yet `prove_eval` aborts: `f - v`
is the zero polynomial, `__divmod__` returns the bare lists `([], [])`, and
`__truediv__`'s assertion `mod == 0` compares a list against an integer,
which is `False` in Python.  The claim (and the spec) say `prove_eval`
succeeds whenever `f(u) = v`. -/
theorem claim_C4_prove_eval_bug_eval :
    polyEval 52435875175126190479447740508185965837690552500527637822603658699938581184513
        ⟨[3]⟩ 0 = 3
    ∧ proveEval 52435875175126190479447740508185965837690552500527637822603658699938581184513
        (setup 52435875175126190479447740508185965837690552500527637822603658699938581184513
          2 (fieldX 52435875175126190479447740508185965837690552500527637822603658699938581184513) 5 1).1
        ⟨[3]⟩ 0 3 = none := by
  constructor
  · rfl
  · rfl

/-! ## Degrees under the semantic map; exact division -/

theorem toPoly_natDegree_le (p : ℕ) (l : List ℤ) :
    (toPoly p l).natDegree ≤ l.length - 1 := by
  apply Polynomial.natDegree_le_iff_coeff_eq_zero.mpr
  intro m hm
  rw [toPoly_coeff, List.getD_eq_default _ _ (by omega)]
  simp

theorem toPoly_natDegree_eq (p : ℕ) (l : List ℤ) (hne : l ≠ [])
    (ht : trimZeros l = l) (hr : ∀ c ∈ l, 0 ≤ c ∧ c < (p : ℤ)) :
    (toPoly p l).natDegree = l.length - 1 := by
  refine le_antisymm (toPoly_natDegree_le p l) ?_
  apply Polynomial.le_natDegree_of_ne_zero
  rw [toPoly_coeff]
  have hlt : l.length - 1 < l.length := by
    have := List.length_pos.mpr hne
    omega
  have hmem : l.getD (l.length - 1) 0 ∈ l := by
    rw [List.getD_eq_getElem _ _ hlt]
    exact List.getElem_mem hlt
  exact inRange_cast_ne_zero p _ (hr _ hmem) (trimmed_getD_last_ne_zero l hne ht)

theorem toPoly_degree_eq (p : ℕ) (l : List ℤ) (hne : l ≠ [])
    (ht : trimZeros l = l) (hr : ∀ c ∈ l, 0 ≤ c ∧ c < (p : ℤ)) :
    (toPoly p l).degree = ((l.length - 1 : ℕ) : WithBot ℕ) := by
  rw [Polynomial.degree_eq_natDegree (toPoly_ne_zero_of_trimmed p l hne ht hr),
    toPoly_natDegree_eq p l hne ht hr]

/-- When the divisor (well formed, nonzero) exactly divides the dividend,
`__divmod__` returns a zero remainder (as the `Polynomial` object with empty
coefficient list). -/
theorem divmod_rem_zero (p : ℕ) (hp : p.Prime) (f g : PyPoly)
    (hf : f.wf p) (hg : g.wf p) (hf0 : f.coeff ≠ []) (hg0 : g.coeff ≠ [])
    (hdvd : toPoly p g.coeff ∣ toPoly p f.coeff) :
    ∃ q, polyDivmod p f g = some (DivmodResult.polys q ⟨[]⟩) ∧ q.wf p ∧
      toPoly p q.coeff * toPoly p g.coeff = toPoly p f.coeff ∧
      (g.coeff.length ≤ f.coeff.length →
        q.coeff.length + g.coeff.length ≤ f.coeff.length + 1) := by
  haveI : Fact p.Prime := ⟨hp⟩
  obtain ⟨q, r, hsome, hqwf, hrwf, heq, hlen, hqlen⟩ :=
    polyDivmod_spec p hp f g hf hg hf0 hg0
  have hRdvd : toPoly p g.coeff ∣ toPoly p r.coeff := by
    have hrw : toPoly p r.coeff
        = toPoly p f.coeff - toPoly p q.coeff * toPoly p g.coeff := by
      rw [← heq]
      ring
    rw [hrw]
    exact dvd_sub hdvd (dvd_mul_left _ _)
  have hR0 : toPoly p r.coeff = 0 := by
    by_cases hrnil : r.coeff = []
    · rw [hrnil]
      rfl
    · apply Polynomial.eq_zero_of_dvd_of_degree_lt hRdvd
      rw [toPoly_degree_eq p g.coeff hg0 hg.1 hg.2, toPoly_degree_eq p r.coeff hrnil hrwf.1 hrwf.2]
      have h1 : 0 < r.coeff.length := List.length_pos.mpr hrnil
      exact_mod_cast (by omega : r.coeff.length - 1 < g.coeff.length - 1)
  have hrzero : r = ⟨[]⟩ := by
    apply pyPoly_eq_of_toPoly_eq p r ⟨[]⟩ hrwf ⟨rfl, by simp⟩
    rw [hR0]
    rfl
  refine ⟨q, by rw [hsome, hrzero], hqwf, ?_, hqlen⟩
  rw [← heq, hrzero]
  simp

/-- Specification of exact division `__truediv__` on a nonzero well-formed
dividend: when the divisor exactly divides, it succeeds with the exact
quotient. -/
theorem polyTruediv_spec (p : ℕ) (hp : p.Prime) (f g : PyPoly)
    (hf : f.wf p) (hg : g.wf p) (hf0 : f.coeff ≠ []) (hg0 : g.coeff ≠ [])
    (hdvd : toPoly p g.coeff ∣ toPoly p f.coeff) :
    ∃ q, polyTruediv p f g = some q ∧ q.wf p ∧
      toPoly p q.coeff * toPoly p g.coeff = toPoly p f.coeff ∧
      (g.coeff.length ≤ f.coeff.length →
        q.coeff.length + g.coeff.length ≤ f.coeff.length + 1) := by
  obtain ⟨q, hsome, hqwf, heq, hqlen⟩ := divmod_rem_zero p hp f g hf hg hf0 hg0 hdvd
  refine ⟨q, ?_, hqwf, heq, hqlen⟩
  rw [polyTruediv, hsome]
  show (if (PyPoly.mk ([] : List ℤ)).coeff.isEmpty = true then some q else none) = some q
  simp

/-! ## The KZG layer -/

theorem fePow_cast (p : ℕ) (s : ℤ) (i : ℕ) :
    ((fePow p s i : ℤ) : ZMod p) = (s : ZMod p) ^ i := by
  rw [fePow, fePowAux_cast p (i + 1) s (feInit p 1) i (by omega), feInit, intCast_emod_zmod]
  push_cast
  ring

theorem toPoly_eval_eq_sum (p : ℕ) (σ : ZMod p) :
    ∀ l : List ℤ,
      (toPoly p l).eval σ
        = ((List.range l.length).map (fun i => ((l.getD i 0 : ℤ) : ZMod p) * σ ^ i)).sum := by
  intro l
  induction l with
  | nil => simp
  | cons a l ih =>
    rw [toPoly_cons, Polynomial.eval_add, Polynomial.eval_C, Polynomial.eval_mul,
      Polynomial.eval_X, ih, List.length_cons, List.range_succ_eq_map, List.map_cons,
      List.sum_cons, List.map_map]
    simp only [List.getD_cons_zero, pow_zero, mul_one, Function.comp_def, List.getD_cons_succ]
    rw [← List.sum_map_mul_left]
    congr 1
    refine congrArg (fun l2 : List (ZMod p) => l2.sum) (List.map_congr_left ?_)
    intro i _
    rw [pow_succ]
    ring

theorem getD_map_range (p : ℕ) (F : ℕ → GroupElt p) (n i : ℕ) (hi : i < n) :
    ((List.range n).map F).getD i 0 = F i := by
  rw [List.getD_eq_getElem _ _ (by simpa using hi)]
  simp

/-- Committing under the primary basis evaluates the polynomial at the
secret point in the exponent. -/
theorem commit_pk1 (p n : ℕ) (t : PyPoly) (s alpha : ℤ) (f : PyPoly)
    (hlen : f.coeff.length ≤ n) :
    commit p (setup p n t s alpha).1.1 f
      = some ((toPoly p f.coeff).eval ((s : ℤ) : ZMod p)) := by
  rw [commit, setup]
  rw [if_pos (by simpa using hlen)]
  congr 1
  rw [toPoly_eval_eq_sum]
  refine congrArg (fun l2 : List (ZMod p) => l2.sum) (List.map_congr_left ?_)
  intro i hi
  have hilt : i < n := by
    have := List.mem_range.mp hi
    omega
  rw [getD_map_range p _ n i hilt, gsmul, gsmul, G, fePow_cast]
  ring

/-- Committing under the alpha-shifted basis evaluates the polynomial at the
secret point and multiplies by `alpha` in the exponent. -/
theorem commit_pk2 (p n : ℕ) (t : PyPoly) (s alpha : ℤ) (f : PyPoly)
    (hlen : f.coeff.length ≤ n) :
    commit p (setup p n t s alpha).1.2 f
      = some (((alpha : ℤ) : ZMod p) * (toPoly p f.coeff).eval ((s : ℤ) : ZMod p)) := by
  rw [commit, setup]
  rw [if_pos (by simpa using hlen)]
  congr 1
  rw [toPoly_eval_eq_sum, ← List.sum_map_mul_left]
  refine congrArg (fun l2 : List (ZMod p) => l2.sum) (List.map_congr_left ?_)
  intro i hi
  have hilt : i < n := by
    have := List.mem_range.mp hi
    omega
  rw [getD_map_range p _ n i hilt, gsmul, gsmul, gsmul, G, fePow_cast]
  ring

theorem zipLongestWith_length (f : ℤ → ℤ → ℤ) :
    ∀ l1 l2 : List ℤ, (zipLongestWith f l1 l2).length = max l1.length l2.length := by
  intro l1
  induction l1 with
  | nil => intro l2; rw [zipLongestWith]; simp
  | cons a l1 ih =>
    intro l2
    rcases l2 with _ | ⟨b, l2⟩
    · rw [zipLongestWith, List.length_cons, ih []]
      simp
    · rw [zipLongestWith, List.length_cons, ih l2, List.length_cons, List.length_cons]
      omega

theorem toPoly_fieldX (p : ℕ) (hp : 1 < p) : toPoly p (fieldX p).coeff = Polynomial.X := by
  rw [fieldX, monomial, toPoly_mkPoly]
  show toPoly p [fieldZero p, fieldOne p] = Polynomial.X
  rw [toPoly_cons, toPoly_cons, toPoly_nil, fieldZero, fieldOne, feInit, feInit,
    intCast_emod_zmod, intCast_emod_zmod]
  push_cast
  simp

theorem toPoly_single (p : ℕ) (v : ℤ) :
    toPoly p (mkPoly p [v]).coeff = Polynomial.C (v : ZMod p) := by
  rw [toPoly_mkPoly, toPoly_cons, toPoly_nil]
  ring

theorem polySub_const_facts (p : ℕ) (hp : p.Prime) (f : PyPoly) (hf : f.wf p)
    (hdeg : 2 ≤ f.coeff.length) (v : ℤ) :
    (polySub p f (mkPoly p [v])).wf p
    ∧ (polySub p f (mkPoly p [v])).coeff ≠ []
    ∧ (polySub p f (mkPoly p [v])).coeff.length = f.coeff.length
    ∧ toPoly p (polySub p f (mkPoly p [v])).coeff
        = toPoly p f.coeff - Polynomial.C ((v : ℤ) : ZMod p) := by
  have hfne : f.coeff ≠ [] := by
    intro hc
    rw [hc] at hdeg
    simp at hdeg
  have himg : toPoly p (polySub p f (mkPoly p [v])).coeff
      = toPoly p f.coeff - Polynomial.C ((v : ℤ) : ZMod p) := by
    rw [toPoly_polySub, toPoly_single]
  have hwf := polySub_wf p hp.pos f (mkPoly p [v])
  have hco : (toPoly p (polySub p f (mkPoly p [v])).coeff).coeff (f.coeff.length - 1) ≠ 0 := by
    rw [himg, Polynomial.coeff_sub, toPoly_coeff, Polynomial.coeff_C,
      if_neg (by omega : ¬(f.coeff.length - 1 = 0)), sub_zero]
    have hlt : f.coeff.length - 1 < f.coeff.length := by omega
    have hmem : f.coeff.getD (f.coeff.length - 1) 0 ∈ f.coeff := by
      rw [List.getD_eq_getElem _ _ hlt]
      exact List.getElem_mem hlt
    exact inRange_cast_ne_zero p _ (hf.2 _ hmem) (trimmed_getD_last_ne_zero f.coeff hfne hf.1)
  have hne : (polySub p f (mkPoly p [v])).coeff ≠ [] := by
    intro hnil
    rw [hnil] at hco
    simp at hco
  have hlenle : (polySub p f (mkPoly p [v])).coeff.length ≤ f.coeff.length := by
    rw [polySub, mkPoly]
    calc (trimZeros (zipLongestWith (feSub p) f.coeff (trimZeros [v]))).length
        ≤ (zipLongestWith (feSub p) f.coeff (trimZeros [v])).length := trimZeros_length_le _
      _ = max f.coeff.length (trimZeros [v]).length := zipLongestWith_length _ _ _
      _ ≤ f.coeff.length := by
          have h1 : (trimZeros [v]).length ≤ 1 := trimZeros_length_le [v]
          omega
  have hlenge : f.coeff.length - 1 ≤ (polySub p f (mkPoly p [v])).coeff.length - 1 := by
    calc f.coeff.length - 1
        ≤ (toPoly p (polySub p f (mkPoly p [v])).coeff).natDegree :=
          Polynomial.le_natDegree_of_ne_zero hco
      _ ≤ (polySub p f (mkPoly p [v])).coeff.length - 1 := toPoly_natDegree_le p _
  have hpos : 0 < (polySub p f (mkPoly p [v])).coeff.length := List.length_pos.mpr hne
  exact ⟨hwf, hne, by omega, himg⟩

theorem xminus_facts (p : ℕ) (hp : p.Prime) (u : ℤ) :
    (polySub p (fieldX p) (mkPoly p [u])).wf p
    ∧ (polySub p (fieldX p) (mkPoly p [u])).coeff ≠ []
    ∧ (polySub p (fieldX p) (mkPoly p [u])).coeff.length = 2
    ∧ toPoly p (polySub p (fieldX p) (mkPoly p [u])).coeff
        = Polynomial.X - Polynomial.C ((u : ℤ) : ZMod p) := by
  haveI : Fact (1 < p) := ⟨hp.one_lt⟩
  have himg : toPoly p (polySub p (fieldX p) (mkPoly p [u])).coeff
      = Polynomial.X - Polynomial.C ((u : ℤ) : ZMod p) := by
    rw [toPoly_polySub, toPoly_fieldX p hp.one_lt, toPoly_single]
  have hwf := polySub_wf p hp.pos (fieldX p) (mkPoly p [u])
  have hX : toPoly p (polySub p (fieldX p) (mkPoly p [u])).coeff ≠ 0 := by
    rw [himg]
    exact Polynomial.X_sub_C_ne_zero _
  have hne : (polySub p (fieldX p) (mkPoly p [u])).coeff ≠ [] := by
    intro hnil
    apply hX
    rw [hnil]
    rfl
  have hnd := toPoly_natDegree_eq p _ hne hwf.1 hwf.2
  rw [himg, Polynomial.natDegree_X_sub_C] at hnd
  have hpos : 0 < (polySub p (fieldX p) (mkPoly p [u])).coeff.length := List.length_pos.mpr hne
  exact ⟨hwf, hne, by omega, himg⟩

/-- Claim C1, amended: KZG evaluation completeness for every polynomial `f`
of degree at least 1 (at least two canonical coefficients).  For a constant
`f` the prover aborts instead (see the counterexample), because exact
division of the zero polynomial `f - v` fails in the source. -/
theorem claim_C1_kzg_eval_completeness (p n : ℕ) (hp : p.Prime) (t : PyPoly)
    (s alpha : ℤ) (f : PyPoly) (hf : f.wf p) (hlen : f.coeff.length ≤ n)
    (hdeg : 2 ≤ f.coeff.length) (u v : ℤ) (hv : v = polyEval p f u) :
    ∃ com_f pi,
      commit p (setup p n t s alpha).1.1 f = some com_f
      ∧ proveEval p (setup p n t s alpha).1 f u v = some pi
      ∧ verifyEval p (setup p n t s alpha).2 com_f u v pi = true := by
  haveI : Fact p.Prime := ⟨hp⟩
  obtain ⟨hswf, hsne, hslen, hsimg⟩ := polySub_const_facts p hp f hf hdeg v
  obtain ⟨hxwf, hxne, hxlen, hximg⟩ := xminus_facts p hp u
  have hdvd : toPoly p (polySub p (fieldX p) (mkPoly p [u])).coeff
      ∣ toPoly p (polySub p f (mkPoly p [v])).coeff := by
    rw [hximg, hsimg]
    apply Polynomial.dvd_iff_isRoot.mpr
    rw [Polynomial.IsRoot.def, Polynomial.eval_sub, Polynomial.eval_C, hv, ← polyEval_cast]
    simp
  obtain ⟨q, hq_some, hqwf, hqeq, hqlen⟩ :=
    polyTruediv_spec p hp _ _ hswf hxwf hsne hxne hdvd
  have hqlen2 : q.coeff.length ≤ n := by
    have h1 := hqlen (by rw [hxlen, hslen]; omega)
    rw [hxlen, hslen] at h1
    omega
  refine ⟨(toPoly p f.coeff).eval ((s : ℤ) : ZMod p),
    (toPoly p q.coeff).eval ((s : ℤ) : ZMod p),
    commit_pk1 p n t s alpha f hlen, ?_, ?_⟩
  · rw [proveEval, hq_some]
    exact commit_pk1 p n t s alpha q hqlen2
  · rw [verifyEval]
    apply decide_eq_true
    have hev := congrArg (Polynomial.eval ((s : ℤ) : ZMod p)) hqeq
    rw [hximg, hsimg] at hev
    simp only [Polynomial.eval_mul, Polynomial.eval_sub, Polynomial.eval_X,
      Polynomial.eval_C] at hev
    show pairE p (setup p n t s alpha).2.1 _ = _
    rw [setup]
    simp only [pairE, gsmul, G]
    linear_combination hev

theorem claim_C1_kzg_eval_completeness_witness :
    Nat.Prime 7 ∧ (PyPoly.mk [1, 1]).wf 7 ∧ (3 : ℤ) = polyEval 7 ⟨[1, 1]⟩ 2
    ∧ (∃ com_f pi,
        commit 7 (setup 7 3 (fieldX 7) 3 2).1.1 ⟨[1, 1]⟩ = some com_f
        ∧ proveEval 7 (setup 7 3 (fieldX 7) 3 2).1 ⟨[1, 1]⟩ 2 3 = some pi
        ∧ verifyEval 7 (setup 7 3 (fieldX 7) 3 2).2 com_f 2 3 pi = true) :=
  have hp : Nat.Prime 7 := by norm_num
  ⟨hp, by decide, by decide,
    claim_C1_kzg_eval_completeness 7 3 hp (fieldX 7) 3 2 ⟨[1, 1]⟩ (by decide) (by decide)
      (by decide) 2 3 (by decide)⟩

/-- Claim C1 as stated fails on the code: for the constant polynomial
`f = 2` over the bls12-381 scalar field (the order src/kzg.py uses), with
`u = 1`, `v = f(u) = 2` and keys of size `n = 2`, `prove_eval` aborts (the
exact division of the zero polynomial `f - v` raises), so
`verify_eval(vk, commit(pk[0], f), u, v, prove_eval(pk, f, u, v))` cannot
return true. -/
theorem claim_C1_counterexample :
    (PyPoly.mk
        [2]).wf 52435875175126190479447740508185965837690552500527637822603658699938581184513
    ∧ (PyPoly.mk [2]).coeff.length ≤ 2
    ∧ polyEval 52435875175126190479447740508185965837690552500527637822603658699938581184513
        ⟨[2]⟩ 1 = 2
    ∧ proveEval 52435875175126190479447740508185965837690552500527637822603658699938581184513
        (setup 52435875175126190479447740508185965837690552500527637822603658699938581184513 2
          (fieldX 52435875175126190479447740508185965837690552500527637822603658699938581184513)
          5 7).1
        ⟨[2]⟩ 1 2 = none := by
  refine ⟨?_, ?_, ?_, ?_⟩
  · decide
  · decide
  · rfl
  · rfl

/-! ## Blinding (claim C3) and shift consistency (claim C7) -/

/-- Claim C3, amended: multiplying every commitment by a scalar `delta`
preserves `verify_roots` and `verify_shift`, whose pairing checks are
homogeneous; it preserves `verify_eval` only when `v ≡ 0 (mod p)`, because
the term `v * G` of its check is not scaled along with the commitments. -/
theorem claim_C3_blinding (p : ℕ) (vk : GroupElt p × GroupElt p × GroupElt p)
    (com_f com_h com_fs : GroupElt p) (u v delta : ℤ) :
    (verifyRoots p vk com_f com_h = true →
      verifyRoots p vk (gsmul p delta com_f) (gsmul p delta com_h) = true)
    ∧ (verifyShift p vk com_f com_fs = true →
      verifyShift p vk (gsmul p delta com_f) (gsmul p delta com_fs) = true)
    ∧ (((v : ℤ) : ZMod p) = 0 →
      verifyEval p vk com_f u v com_h = true →
      verifyEval p vk (gsmul p delta com_f) u v (gsmul p delta com_h) = true) := by
  refine ⟨?_, ?_, ?_⟩
  · intro h
    rw [verifyRoots] at h ⊢
    have h2 := of_decide_eq_true h
    apply decide_eq_true
    simp only [pairE, gsmul, G] at h2 ⊢
    linear_combination ((delta : ℤ) : ZMod p) * h2
  · intro h
    rw [verifyShift] at h ⊢
    have h2 := of_decide_eq_true h
    apply decide_eq_true
    simp only [pairE, gsmul, G] at h2 ⊢
    linear_combination ((delta : ℤ) : ZMod p) * h2
  · intro hv h
    rw [verifyEval] at h ⊢
    have h2 := of_decide_eq_true h
    apply decide_eq_true
    simp only [pairE, gsmul, G, hv] at h2 ⊢
    linear_combination ((delta : ℤ) : ZMod p) * h2

/-- Claim C3 as stated fails on the code for `verify_eval`: an honest
evaluation proof for `f = X`, `u = 1`, `v = f(1) = 1` over the bls12-381
scalar field verifies, but after multiplying both outgoing commitments by
`delta = 2` the check is false, because the term `v * G` of the pairing
equation is not homogeneous in the commitments. -/
theorem claim_C3_counterexample :
    (∃ com_f pi,
      commit 52435875175126190479447740508185965837690552500527637822603658699938581184513
          (setup 52435875175126190479447740508185965837690552500527637822603658699938581184513 2
            (fieldX 52435875175126190479447740508185965837690552500527637822603658699938581184513)
            3 1).1.1 ⟨[0, 1]⟩ = some com_f
      ∧ proveEval 52435875175126190479447740508185965837690552500527637822603658699938581184513
          (setup 52435875175126190479447740508185965837690552500527637822603658699938581184513 2
            (fieldX 52435875175126190479447740508185965837690552500527637822603658699938581184513)
            3 1).1 ⟨[0, 1]⟩ 1 1 = some pi
      ∧ verifyEval 52435875175126190479447740508185965837690552500527637822603658699938581184513
          (setup 52435875175126190479447740508185965837690552500527637822603658699938581184513 2
            (fieldX 52435875175126190479447740508185965837690552500527637822603658699938581184513)
            3 1).2 com_f 1 1 pi = true
      ∧ verifyEval 52435875175126190479447740508185965837690552500527637822603658699938581184513
          (setup 52435875175126190479447740508185965837690552500527637822603658699938581184513 2
            (fieldX 52435875175126190479447740508185965837690552500527637822603658699938581184513)
            3 1).2
          (gsmul 52435875175126190479447740508185965837690552500527637822603658699938581184513
            2 com_f) 1 1
          (gsmul 52435875175126190479447740508185965837690552500527637822603658699938581184513
            2 pi) = false) := by
  refine ⟨3, 1, ?_, ?_, ?_, ?_⟩
  · rfl
  · decide
  · decide
  · decide

theorem claim_C3_blinding_witness :
    verifyRoots 5 (3, 2, 4) 2 1 = true
    ∧ verifyRoots 5 (3, 2, 4) (gsmul 5 2 2) (gsmul 5 2 1) = true
    ∧ verifyShift 5 (3, 2, 4) 2 3 = true
    ∧ verifyShift 5 (3, 2, 4) (gsmul 5 2 2) (gsmul 5 2 3) = true
    ∧ verifyEval 5 (3, 2, 4) 2 1 0 1 = true
    ∧ verifyEval 5 (3, 2, 4) (gsmul 5 2 2) 1 0 (gsmul 5 2 1) = true :=
  have h := claim_C3_blinding 5 (3, 2, 4) 2 1 3 1 0 2
  ⟨by decide, h.1 (by decide), by decide, h.2.1 (by decide), by decide,
    h.2.2 (by decide) (by decide)⟩

/-- Claim C7, amended: shift consistency holds for every `f` with
`len(f.coeff) <= n`; and substituting, on either side, the corresponding
commitment of a polynomial `g` whose evaluation at the secret point `s`
differs from `f`'s makes `verify_shift` return false, provided
`alpha` is nonzero mod p.  (As stated the claim fails: a different
polynomial `g` with `g(s) = f(s)` — a collision at the secret point —
still verifies; see the counterexample.) -/
theorem claim_C7_shift_consistency (p n : ℕ) (hp : p.Prime) (t : PyPoly)
    (s alpha : ℤ) (halpha : ((alpha : ℤ) : ZMod p) ≠ 0)
    (f : PyPoly) (hflen : f.coeff.length ≤ n) :
    ∃ com_f com_fs,
      commit p (setup p n t s alpha).1.1 f = some com_f
      ∧ commit p (setup p n t s alpha).1.2 f = some com_fs
      ∧ verifyShift p (setup p n t s alpha).2 com_f com_fs = true
      ∧ (∀ g : PyPoly, g.coeff.length ≤ n →
          polyEval p g s ≠ polyEval p f s →
          ∀ com_g com_gs,
            commit p (setup p n t s alpha).1.1 g = some com_g →
            commit p (setup p n t s alpha).1.2 g = some com_gs →
            verifyShift p (setup p n t s alpha).2 com_f com_gs = false
            ∧ verifyShift p (setup p n t s alpha).2 com_g com_fs = false) := by
  haveI : Fact p.Prime := ⟨hp⟩
  refine ⟨(toPoly p f.coeff).eval ((s : ℤ) : ZMod p),
    ((alpha : ℤ) : ZMod p) * (toPoly p f.coeff).eval ((s : ℤ) : ZMod p),
    commit_pk1 p n t s alpha f hflen, commit_pk2 p n t s alpha f hflen, ?_, ?_⟩
  · rw [verifyShift]
    apply decide_eq_true
    rw [setup]
    simp only [pairE, gsmul, G]
    ring
  · intro g hglen hgne com_g com_gs hcg hcgs
    have hev_ne : (toPoly p g.coeff).eval ((s : ℤ) : ZMod p)
        ≠ (toPoly p f.coeff).eval ((s : ℤ) : ZMod p) := by
      intro heq
      apply hgne
      apply inRange_cast_inj p _ _ (polyEval_inRange p hp.pos g s) (polyEval_inRange p hp.pos f s)
      rw [polyEval_cast, polyEval_cast, heq]
    rw [commit_pk1 p n t s alpha g hglen] at hcg
    rw [commit_pk2 p n t s alpha g hglen] at hcgs
    have hg1 : com_g = (toPoly p g.coeff).eval ((s : ℤ) : ZMod p) := by
      exact (Option.some.inj hcg).symm
    have hg2 : com_gs = ((alpha : ℤ) : ZMod p) * (toPoly p g.coeff).eval ((s : ℤ) : ZMod p) := by
      exact (Option.some.inj hcgs).symm
    subst hg1
    subst hg2
    constructor
    · rw [verifyShift]
      apply decide_eq_false
      rw [setup]
      simp only [pairE, gsmul, G]
      intro heq
      apply hev_ne
      have h2 : ((alpha : ℤ) : ZMod p) * (toPoly p g.coeff).eval ((s : ℤ) : ZMod p)
          = ((alpha : ℤ) : ZMod p) * (toPoly p f.coeff).eval ((s : ℤ) : ZMod p) := by
        linear_combination heq
      exact mul_left_cancel₀ halpha h2
    · rw [verifyShift]
      apply decide_eq_false
      rw [setup]
      simp only [pairE, gsmul, G]
      intro heq
      apply hev_ne
      have h2 : ((alpha : ℤ) : ZMod p) * (toPoly p g.coeff).eval ((s : ℤ) : ZMod p)
          = ((alpha : ℤ) : ZMod p) * (toPoly p f.coeff).eval ((s : ℤ) : ZMod p) := by
        linear_combination -heq
      exact mul_left_cancel₀ halpha h2

theorem claim_C7_shift_consistency_witness :
    Nat.Prime 5 ∧ (((1 : ℤ) : ZMod 5) ≠ 0)
    ∧ (∃ com_f com_fs,
        commit 5 (setup 5 2 (fieldX 5) 2 1).1.1 ⟨[0, 1]⟩ = some com_f
        ∧ commit 5 (setup 5 2 (fieldX 5) 2 1).1.2 ⟨[0, 1]⟩ = some com_fs
        ∧ verifyShift 5 (setup 5 2 (fieldX 5) 2 1).2 com_f com_fs = true
        ∧ (∀ g : PyPoly, g.coeff.length ≤ 2 →
            polyEval 5 g 2 ≠ polyEval 5 ⟨[0, 1]⟩ 2 →
            ∀ com_g com_gs,
              commit 5 (setup 5 2 (fieldX 5) 2 1).1.1 g = some com_g →
              commit 5 (setup 5 2 (fieldX 5) 2 1).1.2 g = some com_gs →
              verifyShift 5 (setup 5 2 (fieldX 5) 2 1).2 com_f com_gs = false
              ∧ verifyShift 5 (setup 5 2 (fieldX 5) 2 1).2 com_g com_fs = false)) :=
  have hp : Nat.Prime 5 := by norm_num
  ⟨hp, by decide,
    claim_C7_shift_consistency 5 2 hp (fieldX 5) 2 1 (by decide) ⟨[0, 1]⟩ (by decide)⟩

/-- Claim C7 as stated fails on the code: over the bls12-381 scalar field
with secret point `s = 2`, the constant polynomial `g = 2` differs from
`f = X` but collides with it at the secret point (`g(2) = f(2) = 2`), so
substituting `g`'s shifted commitment for `f`'s still verifies. -/
theorem claim_C7_counterexample :
    PyPoly.mk [2] ≠ PyPoly.mk [0, 1]
    ∧ (∃ com_f com_gs,
        commit 52435875175126190479447740508185965837690552500527637822603658699938581184513
          (setup 52435875175126190479447740508185965837690552500527637822603658699938581184513 2
            (fieldX 52435875175126190479447740508185965837690552500527637822603658699938581184513)
            2 3).1.1 ⟨[0, 1]⟩ = some com_f
        ∧ commit 52435875175126190479447740508185965837690552500527637822603658699938581184513
            (setup 52435875175126190479447740508185965837690552500527637822603658699938581184513 2
              (fieldX 52435875175126190479447740508185965837690552500527637822603658699938581184513)
              2 3).1.2 ⟨[2]⟩ = some com_gs
        ∧ verifyShift 52435875175126190479447740508185965837690552500527637822603658699938581184513
            (setup 52435875175126190479447740508185965837690552500527637822603658699938581184513 2
              (fieldX 52435875175126190479447740508185965837690552500527637822603658699938581184513)
              2 3).2 com_f com_gs = true) := by
  refine ⟨by decide, 2, 6, by decide, by decide, by decide⟩

/-! ## Lagrange interpolation: supporting lemmas -/

/-- The balanced product of polynomial objects denotes the product of their
images, and is well formed. -/
theorem prodPoly_spec (p : ℕ) (hp : 0 < p) :
    ∀ (N : ℕ) (l : List PyPoly), l.length ≤ N → (∀ g ∈ l, g.wf p) →
      (prodPoly p l).wf p
      ∧ toPoly p (prodPoly p l).coeff = (l.map (fun g => toPoly p g.coeff)).prod := by
  intro N
  induction N with
  | zero =>
    intro l hl hwf
    have : l = [] := List.length_eq_zero.mp (by omega)
    subst this
    rw [prodPoly]
    simp only [List.length_nil, if_true]
    constructor
    · exact mkPoly_wf p _ (by
        intro c hc
        rcases List.mem_append.mp hc with h | h
        · simp at h
        · rw [List.mem_singleton.mp h, fieldOne, feInit]
          exact inRange_emod p hp 1)
    · rw [monomial, toPoly_mkPoly]
      show toPoly p [fieldOne p] = _
      rw [toPoly_cons, toPoly_nil, fieldOne, feInit, intCast_emod_zmod]
      simp
  | succ N ih =>
    intro l hl hwf
    by_cases h0 : l.length = 0
    · rw [prodPoly]
      simp only [h0, if_true]
      constructor
      · exact mkPoly_wf p _ (by
          intro c hc
          rcases List.mem_append.mp hc with h | h
          · simp at h
          · rw [List.mem_singleton.mp h, fieldOne, feInit]
            exact inRange_emod p hp 1)
      · rw [List.length_eq_zero.mp h0]
        rw [monomial, toPoly_mkPoly]
        show toPoly p [fieldOne p] = _
        rw [toPoly_cons, toPoly_nil, fieldOne, feInit, intCast_emod_zmod]
        simp
    · by_cases h1 : l.length = 1
      · rw [prodPoly]
        simp only [h0, h1, if_false, if_true]
        rcases l with _ | ⟨a, l2⟩
        · simp at h0
        · rcases l2 with _ | ⟨b, l3⟩
          · simp only [List.headD_cons, List.map_cons, List.map_nil, List.prod_cons,
              List.prod_nil, mul_one]
            exact ⟨hwf a (by simp), rfl⟩
          · simp at h1
      · rw [prodPoly]
        simp only [h0, h1, if_false]
        have hlen2 : 2 ≤ l.length := by omega
        have htk : (l.take (l.length / 2)).length ≤ N := by
          rw [List.length_take]
          omega
        have hdp : (l.drop (l.length / 2)).length ≤ N := by
          rw [List.length_drop]
          omega
        have ih1 := ih (l.take (l.length / 2)) htk
          (fun g hg => hwf g (List.take_subset _ _ hg))
        have ih2 := ih (l.drop (l.length / 2)) hdp
          (fun g hg => hwf g (List.drop_subset _ _ hg))
        refine ⟨polyMul_wf p hp _ _, ?_⟩
        rw [toPoly_polyMul, ih1.2, ih2.2, ← List.prod_append, ← List.map_append,
          List.take_append_drop]

/-- The balanced product of field-element values denotes the product of the
casts. -/
theorem prodFE_cast (p : ℕ) :
    ∀ (N : ℕ) (l : List ℤ), l.length ≤ N →
      ((prodFE p l : ℤ) : ZMod p) = (l.map (fun x => ((x : ℤ) : ZMod p))).prod := by
  intro N
  induction N with
  | zero =>
    intro l hl
    have : l = [] := List.length_eq_zero.mp (by omega)
    subst this
    rw [prodFE]
    simp
  | succ N ih =>
    intro l hl
    by_cases h0 : l.length = 0
    · rw [prodFE]
      simp only [h0, if_true]
      rw [List.length_eq_zero.mp h0]
      simp
    · by_cases h1 : l.length = 1
      · rw [prodFE]
        simp only [h0, h1, if_false, if_true]
        rcases l with _ | ⟨a, l2⟩
        · simp at h0
        · rcases l2 with _ | ⟨b, l3⟩
          · simp
          · simp at h1
      · rw [prodFE]
        simp only [h0, h1, if_false]
        have htk : (l.take (l.length / 2)).length ≤ N := by
          rw [List.length_take]
          omega
        have hdp : (l.drop (l.length / 2)).length ≤ N := by
          rw [List.length_drop]
          omega
        rw [castMul, ih _ htk, ih _ hdp, ← List.prod_append, ← List.map_append,
          List.take_append_drop]

theorem mapM_eq_some {α β : Type} (F : α → Option β) (G : α → β) :
    ∀ l : List α, (∀ a ∈ l, F a = some (G a)) → l.mapM F = some (l.map G) := by
  intro l
  induction l with
  | nil => intro _; rfl
  | cons a l ih =>
    intro h
    rw [List.mapM_cons, h a (by simp), ih (fun b hb => h b (by simp [hb]))]
    rfl

theorem getD_map_poly (F : ℤ → PyPoly) (xs : List ℤ) (j : ℕ) (hj : j < xs.length) :
    (xs.map F).getD j ⟨[]⟩ = F (xs.getD j 0) := by
  rw [List.getD_eq_getElem _ _ (by simpa using hj), List.getD_eq_getElem _ _ hj]
  simp

/-- Splitting off the factor at index `j` from a product over a list. -/
theorem map_prod_eraseIdx {M : Type} [CommMonoid M] (F : ℤ → M) :
    ∀ (xs : List ℤ) (j : ℕ), j < xs.length →
      (xs.map F).prod = F (xs.getD j 0) * ((xs.eraseIdx j).map F).prod := by
  intro xs j hj
  rw [List.eraseIdx_eq_take_drop_succ, List.map_append, List.prod_append]
  conv_lhs => rw [← List.take_append_drop j xs, List.map_append, List.prod_append,
    List.drop_eq_getElem_cons hj, List.map_cons, List.prod_cons]
  rw [List.getD_eq_getElem _ _ hj]
  exact mul_left_comm _ _ _

theorem mem_eraseIdx_index (xs : List ℤ) (j : ℕ) :
    ∀ x ∈ xs.eraseIdx j, ∃ i, i < xs.length ∧ i ≠ j ∧ xs.getD i 0 = x := by
  intro x hx
  rw [List.eraseIdx_eq_take_drop_succ] at hx
  rcases List.mem_append.mp hx with h | h
  · obtain ⟨i, hi, hget⟩ := List.mem_iff_getElem.mp h
    have hi2 : i < j ∧ i < xs.length := by
      rw [List.length_take] at hi
      omega
    refine ⟨i, hi2.2, by omega, ?_⟩
    rw [List.getD_eq_getElem _ _ hi2.2, ← hget, List.getElem_take]
  · obtain ⟨i, hi, hget⟩ := List.mem_iff_getElem.mp h
    have hi2 : j + 1 + i < xs.length := by
      rw [List.length_drop] at hi
      omega
    refine ⟨j + 1 + i, hi2, by omega, ?_⟩
    rw [List.getD_eq_getElem _ _ hi2, ← hget, List.getElem_drop]

theorem getD_mem_eraseIdx (xs : List ℤ) (j k : ℕ) (hk : k < xs.length) (hne : k ≠ j) :
    xs.getD k 0 ∈ xs.eraseIdx j := by
  rw [List.eraseIdx_eq_take_drop_succ, List.mem_append]
  rcases Nat.lt_or_ge k j with h | h
  · left
    have hlt : k < (xs.take j).length := by
      rw [List.length_take]
      omega
    have h1 : (xs.take j).getD k 0 = xs.getD k 0 := by
      rw [List.getD_eq_getElem _ _ hlt, List.getD_eq_getElem _ _ hk]
      rw [List.getElem_take]
    rw [← h1, List.getD_eq_getElem _ _ hlt]
    exact List.getElem_mem hlt
  · right
    have hlt : k - (j + 1) < (xs.drop (j + 1)).length := by
      rw [List.length_drop]
      omega
    have h1 : (xs.drop (j + 1)).getD (k - (j + 1)) 0 = xs.getD k 0 := by
      rw [List.getD_eq_getElem _ _ hlt, List.getD_eq_getElem _ _ hk, List.getElem_drop]
      congr 1
      omega
    rw [← h1, List.getD_eq_getElem _ _ hlt]
    exact List.getElem_mem hlt

/-- A product of the linear factors `X - C a` is monic of degree the number
of factors. -/
theorem list_prod_X_sub_C (p : ℕ) (hp : 1 < p) :
    ∀ l : List ℤ,
      ((l.map (fun a => Polynomial.X - Polynomial.C ((a : ℤ) : ZMod p))).prod).Monic
      ∧ ((l.map (fun a => Polynomial.X - Polynomial.C ((a : ℤ) : ZMod p))).prod).natDegree
          = l.length := by
  haveI : Fact (1 < p) := ⟨hp⟩
  intro l
  induction l with
  | nil => exact ⟨Polynomial.monic_one, by simp⟩
  | cons a l ih =>
    rw [List.map_cons, List.prod_cons]
    have hm1 : (Polynomial.X - Polynomial.C ((a : ℤ) : ZMod p)).Monic :=
      Polynomial.monic_X_sub_C _
    refine ⟨hm1.mul ih.1, ?_⟩
    rw [hm1.natDegree_mul ih.1, ih.2, Polynomial.natDegree_X_sub_C]
    simp only [List.length_cons]
    omega

theorem sum_map_single (p : ℕ) (F : ℕ → ZMod p) :
    ∀ n k : ℕ, k < n → (∀ j, j < n → j ≠ k → F j = 0) →
      ((List.range n).map F).sum = F k := by
  intro n
  induction n with
  | zero => intro k hk; omega
  | succ n ih =>
    intro k hk h0
    rw [List.range_succ, List.map_append, List.sum_append]
    by_cases hkn : k = n
    · subst hkn
      have hz : ((List.range k).map F).sum = 0 := by
        apply List.sum_eq_zero
        intro x hx
        obtain ⟨j, hj, hFj⟩ := List.mem_map.mp hx
        rw [← hFj]
        exact h0 j (by have := List.mem_range.mp hj; omega) (by have := List.mem_range.mp hj; omega)
      rw [hz]
      simp
    · have hkn2 : k < n := by omega
      rw [ih k hkn2 (fun j hj hne => h0 j (by omega) hne)]
      have : F n = 0 := h0 n (by omega) (by omega)
      simp [this]

theorem zipWith_list_range (p : ℕ) (n : ℕ) (ys : List ℤ) (h : ys.length = n)
    (F : ℤ → ℕ → Polynomial (ZMod p)) :
    List.zipWith F ys (List.range n)
      = (List.range n).map (fun j => F (ys.getD j 0) j) := by
  apply List.ext_getElem
  · simp [h]
  · intro i hi1 hi2
    have hi3 : i < n := by simpa using hi2
    have hi4 : i < ys.length := by omega
    rw [List.getElem_zipWith, List.getElem_map, List.getElem_range,
      List.getD_eq_getElem _ _ hi4]

theorem foldl_polyAdd_wf (p : ℕ) (hp : 0 < p) :
    ∀ (l : List PyPoly) (acc : PyPoly), acc.wf p → (l.foldl (polyAdd p) acc).wf p := by
  intro l
  induction l with
  | nil => intro acc h; exact h
  | cons a l ih =>
    intro acc h
    rw [List.foldl_cons]
    exact ih _ (polyAdd_wf p hp acc a)

theorem foldl_polyAdd_toPoly (p : ℕ) :
    ∀ (l : List PyPoly) (acc : PyPoly),
      toPoly p (l.foldl (polyAdd p) acc).coeff
        = toPoly p acc.coeff + (l.map (fun g => toPoly p g.coeff)).sum := by
  intro l
  induction l with
  | nil => intro acc; simp
  | cons a l ih =>
    intro acc
    rw [List.foldl_cons, ih, toPoly_polyAdd, List.map_cons, List.sum_cons]
    ring

/-- A well-formed coefficient list of length at most 1 denoting a
polynomial that vanishes somewhere is empty. -/
theorem short_list_eval_zero (p : ℕ) (r : PyPoly) (hr : r.wf p)
    (hlen : r.coeff.length < 2) (a : ZMod p)
    (hev : (toPoly p r.coeff).eval a = 0) : r.coeff = [] := by
  rcases hc : r.coeff with _ | ⟨c, l2⟩
  · rfl
  · rcases l2 with _ | ⟨c2, l3⟩
    · exfalso
      rw [hc, toPoly_cons, toPoly_nil] at hev
      simp only [Polynomial.eval_add, Polynomial.eval_C, Polynomial.eval_mul, mul_zero,
        Polynomial.eval_X, add_zero] at hev
      have hcm : c ∈ r.coeff := by rw [hc]; simp
      have hc0 : c = 0 := by
        apply inRange_cast_inj p c 0 (hr.2 c hcm)
        · constructor
          · exact le_refl 0
          · have := (hr.2 c hcm).1
            have := (hr.2 c hcm).2
            omega
        · rw [hev]
          norm_num
      have htr := hr.1
      rw [hc, hc0] at htr
      simp [trimZeros] at htr
    · rw [hc] at hlen
      simp only [List.length_cons] at hlen
      omega

/-- The `j`-th Lagrange basis polynomial computed by
`calculate_lagrange_polynomials`: the division succeeds exactly, the result
is well formed, no longer than the point count, and evaluates to 1 at the
`j`-th point and 0 at the others. -/
theorem lagrange_basis_spec (p : ℕ) (hp : p.Prime) (xs : List ℤ)
    (hn : 1 ≤ xs.length)
    (hxred : ∀ c ∈ xs, 0 ≤ c ∧ c < (p : ℤ))
    (hdist : ∀ i k, i < xs.length → k < xs.length → i ≠ k → xs.getD i 0 ≠ xs.getD k 0)
    (j : ℕ) (hj : j < xs.length) :
    ∃ q : PyPoly,
      (polyDivmod p (prodPoly p (xs.map (fun x => polySub p (fieldX p) (mkPoly p [x]))))
          (polyScalarMul p
            ((xs.map (fun x => polySub p (fieldX p) (mkPoly p [x]))).getD j ⟨[]⟩)
            (prodFE p ((xs.eraseIdx j).map (fun x => feSub p (xs.getD j 0) x))))).bind
        divmodQuot = some q
      ∧ q.wf p
      ∧ q.coeff.length ≤ xs.length
      ∧ (∀ k, k < xs.length →
          (toPoly p q.coeff).eval ((xs.getD k 0 : ℤ) : ZMod p)
            = if j = k then 1 else 0) := by
  haveI : Fact p.Prime := ⟨hp⟩
  haveI : Fact (1 < p) := ⟨hp.one_lt⟩
  have hmono_wf : ∀ g ∈ xs.map (fun x => polySub p (fieldX p) (mkPoly p [x])), g.wf p := by
    intro g hg
    obtain ⟨x, _, hx⟩ := List.mem_map.mp hg
    rw [← hx]
    exact (xminus_facts p hp x).1
  have hmonoimg : (xs.map (fun x => polySub p (fieldX p) (mkPoly p [x]))).map
      (fun g => toPoly p g.coeff)
      = xs.map (fun x => Polynomial.X - Polynomial.C ((x : ℤ) : ZMod p)) := by
    rw [List.map_map]
    apply List.map_congr_left
    intro x _
    exact (xminus_facts p hp x).2.2.2
  have hN := prodPoly_spec p hp.pos (xs.map (fun x => polySub p (fieldX p) (mkPoly p [x]))).length
    (xs.map (fun x => polySub p (fieldX p) (mkPoly p [x]))) (le_refl _) hmono_wf
  have hNimg : toPoly p (prodPoly p (xs.map (fun x => polySub p (fieldX p) (mkPoly p [x])))).coeff
      = (xs.map (fun x => Polynomial.X - Polynomial.C ((x : ℤ) : ZMod p))).prod := by
    rw [hN.2, hmonoimg]
  have hP := list_prod_X_sub_C p hp.one_lt xs
  have hNne : (prodPoly p (xs.map (fun x => polySub p (fieldX p) (mkPoly p [x])))).coeff ≠ [] := by
    intro hnil
    have h0 : toPoly p (prodPoly p
        (xs.map (fun x => polySub p (fieldX p) (mkPoly p [x])))).coeff = 0 := by
      rw [hnil]
      rfl
    rw [hNimg] at h0
    exact hP.1.ne_zero h0
  have hNlen : (prodPoly p (xs.map (fun x => polySub p (fieldX p) (mkPoly p [x])))).coeff.length
      = xs.length + 1 := by
    have h1 := toPoly_natDegree_eq p _ hNne hN.1.1 hN.1.2
    rw [hNimg, hP.2] at h1
    have h2 := List.length_pos.mpr hNne
    omega
  have hd_cast : ((prodFE p ((xs.eraseIdx j).map (fun x => feSub p (xs.getD j 0) x)) : ℤ) : ZMod p)
      = ((xs.eraseIdx j).map
          (fun x => ((xs.getD j 0 : ℤ) : ZMod p) - ((x : ℤ) : ZMod p))).prod := by
    rw [prodFE_cast p ((xs.eraseIdx j).map (fun x => feSub p (xs.getD j 0) x)).length _ (le_refl _)]
    rw [List.map_map]
    congr 1
    apply List.map_congr_left
    intro x _
    exact castSub p _ _
  have hd_ne : ((prodFE p ((xs.eraseIdx j).map (fun x => feSub p (xs.getD j 0) x)) : ℤ) : ZMod p)
      ≠ 0 := by
    rw [hd_cast]
    apply List.prod_ne_zero
    intro hmem
    obtain ⟨x, hx, hx0⟩ := List.mem_map.mp hmem
    obtain ⟨i, hi, hij, hxi⟩ := mem_eraseIdx_index xs j x hx
    have hcast : ((xs.getD j 0 : ℤ) : ZMod p) = ((x : ℤ) : ZMod p) := sub_eq_zero.mp hx0
    have hj_mem : xs.getD j 0 ∈ xs := by
      rw [List.getD_eq_getElem _ _ hj]
      exact List.getElem_mem hj
    have hx_mem : x ∈ xs := by
      rw [← hxi, List.getD_eq_getElem _ _ hi]
      exact List.getElem_mem hi
    have heqint : xs.getD j 0 = x :=
      inRange_cast_inj p _ _ (hxred _ hj_mem) (hxred _ hx_mem) hcast
    exact hdist j i hj hi (by omega) (by rw [hxi]; exact heqint)
  have hD_getD : (xs.map (fun x => polySub p (fieldX p) (mkPoly p [x]))).getD j ⟨[]⟩
      = polySub p (fieldX p) (mkPoly p [xs.getD j 0]) :=
    getD_map_poly _ xs j hj
  have hDimg : toPoly p (polyScalarMul p
      ((xs.map (fun x => polySub p (fieldX p) (mkPoly p [x]))).getD j ⟨[]⟩)
      (prodFE p ((xs.eraseIdx j).map (fun x => feSub p (xs.getD j 0) x)))).coeff
      = (Polynomial.X - Polynomial.C ((xs.getD j 0 : ℤ) : ZMod p))
        * Polynomial.C ((prodFE p
            ((xs.eraseIdx j).map (fun x => feSub p (xs.getD j 0) x)) : ℤ) : ZMod p) := by
    rw [toPoly_polyScalarMul, hD_getD, (xminus_facts p hp (xs.getD j 0)).2.2.2]
  have hDwf := polyScalarMul_wf p hp.pos
    ((xs.map (fun x => polySub p (fieldX p) (mkPoly p [x]))).getD j ⟨[]⟩)
    (prodFE p ((xs.eraseIdx j).map (fun x => feSub p (xs.getD j 0) x)))
  have hDimg_ne : toPoly p (polyScalarMul p
      ((xs.map (fun x => polySub p (fieldX p) (mkPoly p [x]))).getD j ⟨[]⟩)
      (prodFE p ((xs.eraseIdx j).map (fun x => feSub p (xs.getD j 0) x)))).coeff ≠ 0 := by
    rw [hDimg]
    exact mul_ne_zero (Polynomial.X_sub_C_ne_zero _) (Polynomial.C_ne_zero.mpr hd_ne)
  have hDne : (polyScalarMul p
      ((xs.map (fun x => polySub p (fieldX p) (mkPoly p [x]))).getD j ⟨[]⟩)
      (prodFE p ((xs.eraseIdx j).map (fun x => feSub p (xs.getD j 0) x)))).coeff ≠ [] := by
    intro hnil
    apply hDimg_ne
    rw [hnil]
    rfl
  have hDlen : (polyScalarMul p
      ((xs.map (fun x => polySub p (fieldX p) (mkPoly p [x]))).getD j ⟨[]⟩)
      (prodFE p ((xs.eraseIdx j).map (fun x => feSub p (xs.getD j 0) x)))).coeff.length = 2 := by
    have h1 := toPoly_natDegree_eq p _ hDne hDwf.1 hDwf.2
    rw [hDimg, Polynomial.natDegree_mul (Polynomial.X_sub_C_ne_zero _)
      (Polynomial.C_ne_zero.mpr hd_ne), Polynomial.natDegree_X_sub_C,
      Polynomial.natDegree_C] at h1
    have h2 := List.length_pos.mpr hDne
    omega
  obtain ⟨q, r, hsome, hqwf, hrwf, heq, hrlen, hqlen⟩ :=
    polyDivmod_spec p hp (prodPoly p (xs.map (fun x => polySub p (fieldX p) (mkPoly p [x]))))
      (polyScalarMul p ((xs.map (fun x => polySub p (fieldX p) (mkPoly p [x]))).getD j ⟨[]⟩)
        (prodFE p ((xs.eraseIdx j).map (fun x => feSub p (xs.getD j 0) x))))
      hN.1 hDwf hNne hDne
  have hNeval0 : ((xs.map (fun x => Polynomial.X - Polynomial.C ((x : ℤ) : ZMod p))).prod).eval
      ((xs.getD j 0 : ℤ) : ZMod p) = 0 := by
    rw [Polynomial.eval_list_prod]
    apply List.prod_eq_zero
    rw [List.map_map]
    have hj_mem : xs.getD j 0 ∈ xs := by
      rw [List.getD_eq_getElem _ _ hj]
      exact List.getElem_mem hj
    have : (0 : ZMod p) = (Polynomial.eval ((xs.getD j 0 : ℤ) : ZMod p) ∘
        fun x => Polynomial.X - Polynomial.C ((x : ℤ) : ZMod p)) (xs.getD j 0) := by
      simp
    rw [this]
    exact List.mem_map_of_mem _ hj_mem
  have hreval0 : (toPoly p r.coeff).eval ((xs.getD j 0 : ℤ) : ZMod p) = 0 := by
    have hev := congrArg (Polynomial.eval ((xs.getD j 0 : ℤ) : ZMod p)) heq
    rw [Polynomial.eval_add, Polynomial.eval_mul, hDimg, hNimg, hNeval0, Polynomial.eval_mul,
      Polynomial.eval_sub, Polynomial.eval_X, Polynomial.eval_C, sub_self, zero_mul,
      mul_zero, zero_add] at hev
    exact hev
  have hrnil : r.coeff = [] :=
    short_list_eval_zero p r hrwf (hDlen ▸ hrlen) _ hreval0
  have hsplitN : (xs.map (fun x => Polynomial.X - Polynomial.C ((x : ℤ) : ZMod p))).prod
      = (Polynomial.X - Polynomial.C ((xs.getD j 0 : ℤ) : ZMod p))
        * ((xs.eraseIdx j).map
            (fun x => Polynomial.X - Polynomial.C ((x : ℤ) : ZMod p))).prod :=
    map_prod_eraseIdx _ xs j hj
  rw [hrnil, toPoly_nil, add_zero, hDimg, hNimg, hsplitN] at heq
  have hQC : toPoly p q.coeff
      * Polynomial.C ((prodFE p
          ((xs.eraseIdx j).map (fun x => feSub p (xs.getD j 0) x)) : ℤ) : ZMod p)
      = ((xs.eraseIdx j).map
          (fun x => Polynomial.X - Polynomial.C ((x : ℤ) : ZMod p))).prod := by
    apply mul_left_cancel₀ (Polynomial.X_sub_C_ne_zero ((xs.getD j 0 : ℤ) : ZMod p))
    linear_combination heq
  refine ⟨q, ?_, hqwf, ?_, ?_⟩
  · rw [hsome]
    rfl
  · have hq2 := hqlen (by omega)
    omega
  · intro k hk
    have hEj : (((xs.eraseIdx j).map
        (fun x => Polynomial.X - Polynomial.C ((x : ℤ) : ZMod p))).prod).eval
        ((xs.getD k 0 : ℤ) : ZMod p)
        = ((xs.eraseIdx j).map
            (fun x => ((xs.getD k 0 : ℤ) : ZMod p) - ((x : ℤ) : ZMod p))).prod := by
      rw [Polynomial.eval_list_prod, List.map_map]
      congr 1
      apply List.map_congr_left
      intro x _
      simp
    have hev := congrArg (Polynomial.eval ((xs.getD k 0 : ℤ) : ZMod p)) hQC
    rw [Polynomial.eval_mul, Polynomial.eval_C, hEj] at hev
    by_cases hjk : j = k
    · subst hjk
      rw [if_pos rfl]
      rw [← hd_cast] at hev
      exact mul_right_cancel₀ hd_ne (hev.trans (one_mul _).symm)
    · rw [if_neg hjk]
      have h0 : ((xs.eraseIdx j).map
          (fun x => ((xs.getD k 0 : ℤ) : ZMod p) - ((x : ℤ) : ZMod p))).prod = 0 := by
        apply List.prod_eq_zero
        have hmem := getD_mem_eraseIdx xs j k hk (fun h => hjk h.symm)
        have hz : (0 : ZMod p)
            = ((xs.getD k 0 : ℤ) : ZMod p) - ((xs.getD k 0 : ℤ) : ZMod p) := by
          ring
        rw [hz]
        exact List.mem_map_of_mem _ hmem
      rw [h0] at hev
      rcases mul_eq_zero.mp hev with h | h
      · exact h
      · exact absurd h hd_ne

/-- Restatement of the basis lemma through the total accessor
`lagrangeBasisPoly`. -/
theorem lagrange_basis_getD (p : ℕ) (hp : p.Prime) (xs : List ℤ)
    (hn : 1 ≤ xs.length)
    (hxred : ∀ c ∈ xs, 0 ≤ c ∧ c < (p : ℤ))
    (hdist : ∀ i k, i < xs.length → k < xs.length → i ≠ k → xs.getD i 0 ≠ xs.getD k 0)
    (j : ℕ) (hj : j < xs.length) :
    (polyDivmod p (prodPoly p (xs.map (fun x => polySub p (fieldX p) (mkPoly p [x]))))
        (polyScalarMul p
          ((xs.map (fun x => polySub p (fieldX p) (mkPoly p [x]))).getD j ⟨[]⟩)
          (prodFE p ((xs.eraseIdx j).map (fun x => feSub p (xs.getD j 0) x))))).bind
      divmodQuot = some (lagrangeBasisPoly p xs j)
    ∧ (lagrangeBasisPoly p xs j).wf p
    ∧ (lagrangeBasisPoly p xs j).coeff.length ≤ xs.length
    ∧ ∀ k, k < xs.length →
        (toPoly p (lagrangeBasisPoly p xs j).coeff).eval ((xs.getD k 0 : ℤ) : ZMod p)
          = if j = k then 1 else 0 := by
  obtain ⟨q, hq1, hq2, hq3, hq4⟩ := lagrange_basis_spec p hp xs hn hxred hdist j hj
  have hGq : lagrangeBasisPoly p xs j = q := by
    rw [lagrangeBasisPoly, hq1]
    rfl
  rw [hGq]
  exact ⟨hq1, hq2, hq3, hq4⟩

/-- Mapping `toPoly` over the scalar combination step of
`interpolate_poly_lagrange`. -/
theorem zipWith_scalar_basis (p : ℕ) (F : ℕ → PyPoly) :
    ∀ (ys : List ℤ) (js : List ℕ),
      (List.zipWith (fun y l => polyScalarMul p l y) ys (js.map F)).map
        (fun g => toPoly p g.coeff)
      = List.zipWith (fun y j => toPoly p (F j).coeff
          * Polynomial.C ((y : ℤ) : ZMod p)) ys js := by
  intro ys
  induction ys with
  | nil => intro js; rfl
  | cons y ys ih =>
    intro js
    cases js with
    | nil => rfl
    | cons j js =>
      rw [List.map_cons, List.zipWith_cons_cons, List.map_cons, List.zipWith_cons_cons, ih]
      congr 1
      exact toPoly_polyScalarMul p (F j) y

theorem foldr_max_le (m : ℕ) : ∀ l : List ℕ, (∀ x ∈ l, x ≤ m) → l.foldr max 0 ≤ m := by
  intro l
  induction l with
  | nil => intro _; simp
  | cons a l ih =>
    intro h
    rw [List.foldr_cons]
    exact max_le (h a (by simp)) (ih fun x hx => h x (by simp [hx]))

/-- A well-formed polynomial object whose image is a sum of polynomials of
natural degree below `n` has at most `n` coefficients. -/
theorem wf_len_of_sum_degrees (p : ℕ) (n : ℕ) (hn : 1 ≤ n) (res : PyPoly)
    (hwf : res.wf p) (terms : List (Polynomial (ZMod p)))
    (himg : toPoly p res.coeff = terms.sum)
    (hdegs : ∀ t ∈ terms, t.natDegree ≤ n - 1) :
    res.coeff.length ≤ n := by
  by_cases hnil : res.coeff = []
  · rw [hnil]
    simp
  · have h1 := toPoly_natDegree_eq p _ hnil hwf.1 hwf.2
    have h2 : (toPoly p res.coeff).natDegree ≤ n - 1 := by
      rw [himg]
      refine (Polynomial.natDegree_list_sum_le terms).trans ?_
      apply foldr_max_le
      intro x hx
      obtain ⟨t, ht, hxt⟩ := List.mem_map.mp hx
      rw [← hxt]
      exact hdegs t ht
    have h3 := List.length_pos.mpr hnil
    omega

theorem eval_list_sum (p : ℕ) (x : ZMod p) :
    ∀ l : List (Polynomial (ZMod p)), (l.sum).eval x = (l.map (Polynomial.eval x)).sum := by
  intro l
  induction l with
  | nil => simp
  | cons a l ih => rw [List.sum_cons, Polynomial.eval_add, ih, List.map_cons, List.sum_cons]

/-- C6: interpolation round-trip.  For every n ≥ 1, every list of n
pairwise-distinct reduced field elements `xs` and every list of n reduced
field elements `ys`, `interpolate_poly(xs, ys)` succeeds and returns a
polynomial of degree < n that evaluates to `ys[i]` at `xs[i]` for every
`i < n`. -/
theorem claim_C6_interpolation (p : ℕ) (hp : p.Prime) (xs ys : List ℤ)
    (hlen : xs.length = ys.length) (hn : 1 ≤ xs.length)
    (hxred : ∀ c ∈ xs, 0 ≤ c ∧ c < (p : ℤ))
    (hyred : ∀ c ∈ ys, 0 ≤ c ∧ c < (p : ℤ))
    (hdist : ∀ i k, i < xs.length → k < xs.length → i ≠ k →
      xs.getD i 0 ≠ xs.getD k 0) :
    ∃ poly : PyPoly, interpolatePoly p xs ys = some poly
      ∧ polyDegree poly < (xs.length : ℤ)
      ∧ ∀ i, i < xs.length → polyEval p poly (xs.getD i 0) = ys.getD i 0 := by
  haveI : Fact p.Prime := ⟨hp⟩
  have hn0 : ¬ xs.length = 0 := by omega
  have hys0 : ¬ ys.length = 0 := by omega
  have hB := fun (j : ℕ) (hj : j < xs.length) =>
    lagrange_basis_getD p hp xs hn hxred hdist j hj
  have hmapM : (List.range xs.length).mapM
      (fun j =>
        (polyDivmod p (prodPoly p (xs.map (fun x => polySub p (fieldX p) (mkPoly p [x]))))
          (polyScalarMul p
            ((xs.map (fun x => polySub p (fieldX p) (mkPoly p [x]))).getD j ⟨[]⟩)
            (prodFE p ((xs.eraseIdx j).map (fun x => feSub p (xs.getD j 0) x))))).bind
          divmodQuot)
      = some ((List.range xs.length).map (fun j => lagrangeBasisPoly p xs j)) := by
    apply mapM_eq_some
    intro j hj
    exact (hB j (List.mem_range.mp hj)).1
  have hcalc : calculateLagrangePolynomials p xs
      = some ((List.range xs.length).map (fun j => lagrangeBasisPoly p xs j)) := by
    rw [calculateLagrangePolynomials, if_neg hn0]
    exact hmapM
  have hsome : interpolatePoly p xs ys
      = some ((List.zipWith (fun y l => polyScalarMul p l y) ys
          ((List.range xs.length).map (fun j => lagrangeBasisPoly p xs j))).foldl
          (polyAdd p) ⟨[]⟩) := by
    rw [interpolatePoly, if_pos hlen, hcalc]
    show interpolatePolyLagrange p ys
      ((List.range xs.length).map (fun j => lagrangeBasisPoly p xs j)) = _
    rw [interpolatePolyLagrange, if_neg hys0]
  have hwf : ((List.zipWith (fun y l => polyScalarMul p l y) ys
      ((List.range xs.length).map (fun j => lagrangeBasisPoly p xs j))).foldl
      (polyAdd p) ⟨[]⟩).wf p :=
    foldl_polyAdd_wf p hp.pos _ _ ⟨rfl, by simp⟩
  have himg : toPoly p ((List.zipWith (fun y l => polyScalarMul p l y) ys
      ((List.range xs.length).map (fun j => lagrangeBasisPoly p xs j))).foldl
      (polyAdd p) ⟨[]⟩).coeff
      = ((List.range xs.length).map (fun j =>
          toPoly p (lagrangeBasisPoly p xs j).coeff
            * Polynomial.C ((ys.getD j 0 : ℤ) : ZMod p))).sum := by
    rw [foldl_polyAdd_toPoly, toPoly_nil, zero_add,
      zipWith_scalar_basis p (fun j => lagrangeBasisPoly p xs j) ys (List.range xs.length),
      zipWith_list_range p xs.length ys hlen.symm
        (fun y j => toPoly p (lagrangeBasisPoly p xs j).coeff
          * Polynomial.C ((y : ℤ) : ZMod p))]
  have hlenres : ((List.zipWith (fun y l => polyScalarMul p l y) ys
      ((List.range xs.length).map (fun j => lagrangeBasisPoly p xs j))).foldl
      (polyAdd p) ⟨[]⟩).coeff.length ≤ xs.length := by
    apply wf_len_of_sum_degrees p xs.length hn _ hwf _ himg
    intro t ht
    obtain ⟨j, hj, hjt⟩ := List.mem_map.mp ht
    have hjlt : j < xs.length := List.mem_range.mp hj
    rw [← hjt]
    refine (Polynomial.natDegree_mul_le).trans ?_
    rw [Polynomial.natDegree_C]
    have h1 := toPoly_natDegree_le p (lagrangeBasisPoly p xs j).coeff
    have h2 := (hB j hjlt).2.2.1
    omega
  refine ⟨_, hsome, ?_, ?_⟩
  · rw [polyDegree, hwf.1]
    have := hlenres
    omega
  · intro i hi
    have hyi_mem : ys.getD i 0 ∈ ys := by
      rw [List.getD_eq_getElem _ _ (by omega)]
      exact List.getElem_mem (by omega)
    apply inRange_cast_inj p _ _ (polyEval_inRange p hp.pos _ _) (hyred _ hyi_mem)
    rw [polyEval_cast, himg, eval_list_sum, List.map_map]
    simp only [Function.comp_def]
    have hz : ∀ j, j < xs.length → j ≠ i →
        Polynomial.eval ((xs.getD i 0 : ℤ) : ZMod p)
          (toPoly p (lagrangeBasisPoly p xs j).coeff
            * Polynomial.C ((ys.getD j 0 : ℤ) : ZMod p)) = 0 := by
      intro j hjlt hji
      rw [Polynomial.eval_mul, (hB j hjlt).2.2.2 i hi, if_neg hji, zero_mul]
    rw [sum_map_single p _ xs.length i hi hz, Polynomial.eval_mul,
      (hB i hi).2.2.2 i hi, if_pos rfl, one_mul, Polynomial.eval_C]

/-- Witness for C6: interpolating through (1,3) and (2,4) over F_5. -/
theorem claim_C6_interpolation_witness :
    ∃ poly : PyPoly, interpolatePoly 5 [1, 2] [3, 4] = some poly
      ∧ polyDegree poly < (([1, 2] : List ℤ).length : ℤ)
      ∧ ∀ i, i < ([1, 2] : List ℤ).length →
          polyEval 5 poly (([1, 2] : List ℤ).getD i 0) = ([3, 4] : List ℤ).getD i 0 :=
  claim_C6_interpolation 5 (by norm_num) [1, 2] [3, 4] rfl (by decide) (by decide) (by decide)
    (by
      intro i k hi hk hne
      have hi2 : i < 2 := by simpa using hi
      have hk2 : k < 2 := by simpa using hk
      interval_cases i <;> interval_cases k <;> revert hne <;> decide)
